import Mathlib

/-!
# Category list view: filtering, sorting, expansion and selection

A shallow embedding of `src/frontend/src/components/CategoryList.jsx` and of the payload that
`handleSubmit` of `src/frontend/src/components/EditCategory.jsx` builds.

Modelling conventions.

* A JavaScript string is a list of characters (`Str`); `toLowerCase` lowers the ASCII letters,
  `includes` is substring search and `<` on strings is the lexicographic order of the code units.
  No theorem below uses a property of `toLowerCase` other than that it is a function.
* A property of a fetched category may be missing, `null`, or hold a value of the column's type
  (`Field`).  Reading a missing property gives `undefined`.
* An evaluation that raises a `TypeError` (calling `toLowerCase` on `undefined` or `null`)
  returns `none`; the exception propagates through `filter`, `some`, `forEach` and `sort`.
* A JavaScript `Set` of identifiers is the list of its elements in insertion order (`JsSet`).
* An asynchronous handler is run to completion on the answers to its requests, which are
  arguments of the handler; the requests it sent are part of its `Outcome`.  A user action
  (`step`) is run to completion before the next one.
* `Array.prototype.sort` is a built-in of the JavaScript engine.  ECMAScript requires a stable
  sort and leaves the order implementation-defined when the comparator is not a consistent
  ordering of the elements; `jsSort` is the stable insertion sort that inserts each element, left
  to right, before the first already placed element it compares below (the comparator is called
  as `cmp pivot element`).  Whenever the comparator is consistent on the elements every
  conforming engine returns the same array as `jsSort`.
-/

namespace CategoryList

/-! ## Strings -/

/-- A JavaScript string. -/
abbrev Str := List Char

/-- The method `String.prototype.toLowerCase`. -/
def toLowerCase (s : Str) : Str := s.map Char.toLower

/-- The method `String.prototype.includes`: `includes s t` is `s.includes(t)`. -/
def includes : Str → Str → Bool
  | [], t => t.isEmpty
  | c :: cs, t => t.isPrefixOf (c :: cs) || includes cs t

/-- The operator `<` on two strings: lexicographic comparison of the code units. -/
def strLt : Str → Str → Bool
  | [], [] => false
  | [], _ :: _ => true
  | _ :: _, [] => false
  | a :: as, b :: bs =>
    if a.toNat < b.toNat then true
    else if b.toNat < a.toNat then false
    else strLt as bs

/-- The operator `<` on two booleans: `false < true` only. -/
def boolLt (x y : Bool) : Bool := !x && y

/-! ## Data model -/

/-- The content of a property of a fetched record. -/
inductive Field (α : Type) where
  | absent : Field α
  | null : Field α
  | val (a : α) : Field α
  deriving DecidableEq, Repr

/-- A category identifier (`_id`). -/
abbrev Id := Nat

/-- A category record of the fetched collection; `children` is `none` when the property is
missing or `null`. -/
inductive Category where
  | mk (_id : Id) (name description status : Field Str) (stock_availability : Field Bool)
      (children : Option (List Category)) : Category

namespace Category

/-- The property `_id`. -/
def _id : Category → Id
  | mk i _ _ _ _ _ => i

/-- The property `name`. -/
def name : Category → Field Str
  | mk _ n _ _ _ _ => n

/-- The property `description`. -/
def description : Category → Field Str
  | mk _ _ d _ _ _ => d

/-- The property `status`. -/
def status : Category → Field Str
  | mk _ _ _ s _ _ => s

/-- The property `stock_availability`. -/
def stock_availability : Category → Field Bool
  | mk _ _ _ _ b _ => b

/-- The property `children`. -/
def children : Category → Option (List Category)
  | mk _ _ _ _ _ cs => cs

end Category

/-- The sort direction; every string other than `'ascending'` acts as `descending`. -/
inductive Direction where
  | ascending
  | descending
  deriving DecidableEq, Repr

/-- The column keys the table header passes to `sortData`. -/
inductive SortKey where
  | name
  | description
  | status
  | stock_availability
  deriving DecidableEq, Repr

/-- The state `sortConfig`; `key = none` is a falsy key. -/
structure SortConfig where
  key : Option SortKey
  direction : Direction
  deriving DecidableEq, Repr

/-! ## JavaScript sets of identifiers -/

/-- A `Set` of identifiers: its elements in insertion order. -/
abbrev JsSet := List Id

namespace JsSet

/-- The method `Set.prototype.has`. -/
def has (s : JsSet) (x : Id) : Bool := decide (x ∈ s)

/-- The method `Set.prototype.add`. -/
def add (s : JsSet) (x : Id) : JsSet := if has s x then s else s ++ [x]

/-- The method `Set.prototype.delete`. -/
def delete (s : JsSet) (x : Id) : JsSet := s.filter (fun y => decide (y ≠ x))

/-- The constructor `new Set(iterable)`. -/
def ofArray (xs : List Id) : JsSet := xs.foldl add []

/-- The property `Set.prototype.size`. -/
def size (s : JsSet) : Nat := s.length

end JsSet

/-! ## Array built-ins with a callback that may throw -/

/-- The method `Array.prototype.some`: stops at the first element the callback accepts. -/
def arraySome {α : Type} (p : α → Option Bool) : List α → Option Bool
  | [] => some false
  | x :: xs =>
    match p x with
    | none => none
    | some true => some true
    | some false => arraySome p xs

/-- The method `Array.prototype.filter`. -/
def arrayFilter {α : Type} (p : α → Option Bool) : List α → Option (List α)
  | [] => some []
  | x :: xs =>
    match p x with
    | none => none
    | some b =>
      match arrayFilter p xs with
      | none => none
      | some ys => some (if b then x :: ys else ys)

/-- One insertion step of `jsSort`: the pivot `x` goes before the first element `y` with
`cmp x y < 0`. -/
def insertSorted {α : Type} (cmp : α → α → Option Int) (x : α) :
    List α → Option (List α)
  | [] => some [x]
  | y :: ys =>
    match cmp x y with
    | none => none
    | some r =>
      if r < 0 then some (x :: y :: ys)
      else
        match insertSorted cmp x ys with
        | none => none
        | some zs => some (y :: zs)

/-- The loop of `jsSort`: `acc` is the sorted prefix, the second list what is left. -/
def sortLoop {α : Type} (cmp : α → α → Option Int) : List α → List α → Option (List α)
  | acc, [] => some acc
  | acc, x :: xs =>
    match insertSorted cmp x acc with
    | none => none
    | some acc' => sortLoop cmp acc' xs

/-- The method `Array.prototype.sort` with a comparator, on a copy of the array. -/
def jsSort {α : Type} (cmp : α → α → Option Int) (l : List α) : Option (List α) :=
  sortLoop cmp [] l

/-! ## `getSortedData` -/

/-- How the comparator treats the values of a column: whether `typeof v === 'string'`, the
method `toLowerCase`, and the operator `<`. -/
structure ColumnType (α : Type) where
  isString : Bool
  toLowerCase : α → α
  lt : α → α → Bool

/-- The text columns `name`, `description` and `status`. -/
def textColumn : ColumnType Str := ⟨true, toLowerCase, strLt⟩

/-- The boolean column `stock_availability`. -/
def boolColumn : ColumnType Bool := ⟨false, id, boolLt⟩

/-- The last three statements of the comparator, on two values of the column's type. -/
def orderValues {α : Type} (lt : α → α → Bool) (d : Direction) (x y : α) : Int :=
  if lt x y then (if d = Direction.ascending then -1 else 1)
  else if lt y x then (if d = Direction.ascending then 1 else -1)
  else 0

/-- The comparator of `getSortedData` on the two values `a[sortConfig.key]` and
`b[sortConfig.key]`.  With `undefined` on either side both `<` and `>` are false; a string
against `undefined` throws at `bValue.toLowerCase()`. -/
def compareValues {α : Type} (T : ColumnType α) (d : Direction) :
    Field α → Field α → Option Int
  | Field.null, _ => some 1
  | _, Field.null => some (-1)
  | Field.val x, Field.val y =>
    if T.isString then some (orderValues T.lt d (T.toLowerCase x) (T.toLowerCase y))
    else some (orderValues T.lt d x y)
  | Field.val _, Field.absent => if T.isString then none else some 0
  | Field.absent, _ => some 0

/-- The comparator of `getSortedData` for the column `key`. -/
def comparator (key : SortKey) (d : Direction) (a b : Category) : Option Int :=
  match key with
  | SortKey.name => compareValues textColumn d a.name b.name
  | SortKey.description => compareValues textColumn d a.description b.description
  | SortKey.status => compareValues textColumn d a.status b.status
  | SortKey.stock_availability =>
    compareValues boolColumn d a.stock_availability b.stock_availability

/-- The function `getSortedData`. -/
def getSortedData (sortConfig : SortConfig) (data : List Category) : Option (List Category) :=
  match sortConfig.key with
  | none => some data
  | some key => jsSort (comparator key sortConfig.direction) data

/-! ## `getMatchingCategories` -/

/-- The expression `v.toLowerCase().includes(searchTerm.toLowerCase())`. -/
def fieldIncludes (v : Field Str) (searchTerm : Str) : Option Bool :=
  match v with
  | Field.val s => some (includes (toLowerCase s) (toLowerCase searchTerm))
  | _ => none

/-- The expression `c.name.toLowerCase().includes(..) || c.description.toLowerCase().includes(..)`;
the right operand is evaluated only when the left one is false. -/
def matchesText (c : Category) (searchTerm : Str) : Option Bool :=
  match fieldIncludes c.name searchTerm with
  | none => none
  | some true => some true
  | some false => fieldIncludes c.description searchTerm

/-- The expression `category.children?.some(child => ...)`; `undefined` (falsy) without
children. -/
def matchesChildren (c : Category) (searchTerm : Str) : Option Bool :=
  match c.children with
  | none => some false
  | some cs => arraySome (fun child => matchesText child searchTerm) cs

/-- The callback of the filter in `getMatchingCategories`: both constants are evaluated. -/
def matchesCategory (searchTerm : Str) (c : Category) : Option Bool :=
  match matchesText c searchTerm with
  | none => none
  | some m =>
    match matchesChildren c searchTerm with
    | none => none
    | some k => some (m || k)

/-- The function `getMatchingCategories`. -/
def getMatchingCategories (categories : List Category) (searchTerm : Str) :
    Option (List Category) :=
  if searchTerm = [] then some categories
  else arrayFilter (matchesCategory searchTerm) categories

/-- The constant `filteredAndSortedCategories`, from the state it is computed from. -/
def filteredAndSortedCategories (categories : List Category) (searchTerm : Str)
    (sortConfig : SortConfig) : Option (List Category) :=
  match getMatchingCategories categories searchTerm with
  | none => none
  | some matching => getSortedData sortConfig matching

/-! ## Component state and handlers -/

/-- The state of the component `CategoryList`. -/
structure State where
  categories : List Category
  expandedCategories : JsSet
  searchTerm : Str
  loading : Bool
  error : Str
  selectedCategories : JsSet
  sortConfig : SortConfig

/-- The updater shared by `toggleCategory` and `toggleSelectCategory`. -/
def toggleSet (prev : JsSet) (categoryId : Id) : JsSet :=
  if JsSet.has prev categoryId then JsSet.delete prev categoryId
  else JsSet.add prev categoryId

/-- The handler `toggleCategory`. -/
def toggleCategory (categoryId : Id) (st : State) : State :=
  { st with expandedCategories := toggleSet st.expandedCategories categoryId }

/-- The handler `toggleSelectCategory`. -/
def toggleSelectCategory (categoryId : Id) (st : State) : State :=
  { st with selectedCategories := toggleSet st.selectedCategories categoryId }

/-- The handler `handleSelectAll`; `checked` is `e.target.checked`.  The handler exists only in
a render in which `filteredAndSortedCategories` was computed. -/
def handleSelectAll (checked : Bool) (st : State) : Option State :=
  if checked then
    match filteredAndSortedCategories st.categories st.searchTerm st.sortConfig with
    | none => none
    | some visible =>
      some { st with selectedCategories := JsSet.ofArray (visible.map Category._id) }
  else some { st with selectedCategories := [] }

/-- The loop `categories.forEach(..)` of the search effect, from the set collected so far. -/
def collectMatchingParents (searchTerm : Str) : JsSet → List Category → Option JsSet
  | acc, [] => some acc
  | acc, c :: cs =>
    match matchesChildren c searchTerm with
    | none => none
    | some true => collectMatchingParents searchTerm (JsSet.add acc c._id) cs
    | some false => collectMatchingParents searchTerm acc cs

/-- The effect that runs when `searchTerm` or `categories` changes. -/
def searchEffect (st : State) : Option State :=
  if st.searchTerm = [] then some st
  else
    match collectMatchingParents st.searchTerm [] st.categories with
    | none => none
    | some matchingParentIds =>
      if JsSet.size matchingParentIds > 0 then
        some { st with
          expandedCategories := JsSet.ofArray (st.expandedCategories ++ matchingParentIds) }
      else some st

/-! ## What the specification speaks about -/

/-- The value is `null`. -/
def Field.isNull {α : Type} : Field α → Bool
  | Field.null => true
  | _ => false

/-- The property is missing. -/
def Field.isAbsent {α : Type} : Field α → Bool
  | Field.absent => true
  | _ => false

/-- The category's value for the sort key is `null`. -/
def nullAt (key : SortKey) (c : Category) : Bool :=
  match key with
  | SortKey.name => c.name.isNull
  | SortKey.description => c.description.isNull
  | SortKey.status => c.status.isNull
  | SortKey.stock_availability => c.stock_availability.isNull

/-- The category has no value for the sort key. -/
def absentAt (key : SortKey) (c : Category) : Bool :=
  match key with
  | SortKey.name => c.name.isAbsent
  | SortKey.description => c.description.isAbsent
  | SortKey.status => c.status.isAbsent
  | SortKey.stock_availability => c.stock_availability.isAbsent

/-- The value is a string that contains the term as a substring, letter case ignored. -/
def ContainsTerm (v : Field Str) (term : Str) : Prop :=
  ∃ s, v = Field.val s ∧ toLowerCase term <:+: toLowerCase s

/-- The name or the description of the category contains the term. -/
def TextMatches (c : Category) (term : Str) : Prop :=
  ContainsTerm c.name term ∨ ContainsTerm c.description term

/-- A direct child of the category has a name or a description that contains the term. -/
def ChildMatches (c : Category) (term : Str) : Prop :=
  ∃ cs, c.children = some cs ∧ ∃ child ∈ cs, TextMatches child term

/-- A child of a direct child of the category has a name or a description that contains the
term. -/
def GrandchildMatches (c : Category) (term : Str) : Prop :=
  ∃ cs, c.children = some cs ∧ ∃ child ∈ cs, ChildMatches child term

/-- The set `matchingParents(term)` of the specification: the identifiers of the top-level
categories with a direct child whose name or description contains the term. -/
def MatchingParent (categories : List Category) (term : Str) (i : Id) : Prop :=
  ∃ c ∈ categories, c._id = i ∧ ChildMatches c term

/-- The name and the description of the category are strings, as the data model has them. -/
def hasText (c : Category) : Bool :=
  match c.name, c.description with
  | Field.val _, Field.val _ => true
  | _, _ => false

/-- Every top-level category and every direct child has a string for name and description. -/
def textCollection (categories : List Category) : Bool :=
  categories.all fun c =>
    hasText c &&
      match c.children with
      | none => true
      | some cs => cs.all hasText

/-- The lower-cased name of a category whose name is a string. -/
def lowerName (c : Category) : Str :=
  match c.name with
  | Field.val s => toLowerCase s
  | _ => []

/-! ## Example collections -/

/-- A category without children, with an empty description, active and in stock. -/
def leaf (i : Id) (name : String) : Category :=
  Category.mk i (Field.val name.toList) (Field.val []) (Field.val "active".toList)
    (Field.val true) none

/-- A leaf category with the given value for `stock_availability`. -/
def stocked (i : Id) (stock : Field Bool) : Category :=
  Category.mk i (Field.val "item".toList) (Field.val []) (Field.val "active".toList) stock none

/-- A leaf category with the given value for `description`. -/
def described (i : Id) (description : Field Str) : Category :=
  Category.mk i (Field.val "item".toList) description (Field.val "active".toList)
    (Field.val true) none

/-- Category 1 of the specification's example, "Fruits" with the child "Apples"; the properties
the example leaves out hold values of the data model's types. -/
def fruits : Category :=
  Category.mk 1 (Field.val "Fruits".toList) (Field.val []) (Field.val "active".toList)
    (Field.val true) (some [leaf 2 "Apples"])

/-- The collection of the specification's example. -/
def exampleCategories : List Category := [fruits, leaf 3 "Tools"]

/-- A category whose only match for "fuji" is a grandchild. -/
def orchard : Category :=
  Category.mk 5 (Field.val "Orchard".toList) (Field.val []) (Field.val "active".toList)
    (Field.val true)
    (some [Category.mk 6 (Field.val "Apples".toList) (Field.val []) (Field.val "active".toList)
      (Field.val true) (some [leaf 7 "Fuji"])])

/-- A state of the component as it is after the collection was loaded. -/
def loaded (categories : List Category) (searchTerm : String) (expanded selected : JsSet) :
    State :=
  { categories := categories
    expandedCategories := expanded
    searchTerm := searchTerm.toList
    loading := false
    error := []
    selectedCategories := selected
    sortConfig := ⟨some SortKey.stock_availability, Direction.descending⟩ }

/-! ## Requests, responses and the asynchronous handlers -/

/-- What the `try` block of `fetchCategories` meets: an exception with its message (the promise
of `fetch` or of `response.json()` rejects), or a response with its `ok` flag and the property
`data` of its body (`none` when it is missing or falsy). -/
inductive ListResponse where
  | thrown (message : Str) : ListResponse
  | status (ok : Bool) (data : Option (List Category)) : ListResponse

/-- What the `try` block of a delete handler meets: an exception with its message, or a response
with its `ok` flag. -/
inductive DeleteResponse where
  | thrown (message : Str) : DeleteResponse
  | status (ok : Bool) : DeleteResponse

/-- A request sent to the backend. -/
inductive Request where
  | allCategories : Request
  | deleteCategoryById (categoryId : Id) : Request
  | deleteCategoriesById (categoryIds : List Id) : Request
  deriving DecidableEq, Repr

/-- The state a handler leaves and the requests it sent, in order. -/
structure Outcome where
  state : State
  requests : List Request

/-- The initial values of the `useState` calls. -/
def initialState : State :=
  { categories := []
    expandedCategories := []
    searchTerm := []
    loading := true
    error := []
    selectedCategories := []
    sortConfig := ⟨some SortKey.stock_availability, Direction.descending⟩ }

/-- The function `fetchCategories`, run until its `finally` block, on the answer `r` to its
request. -/
def fetchCategories (r : ListResponse) (st : State) : State :=
  let st1 : State := { st with loading := true, error := [] }
  let st2 : State :=
    match r with
    | ListResponse.thrown message => { st1 with error := message }
    | ListResponse.status false _ => { st1 with error := "Failed to fetch categories.".toList }
    | ListResponse.status true data => { st1 with categories := data.getD [] }
  { st2 with loading := false }

/-- The handler `handleMultipleDelete`, run to completion: `confirmed` is the answer of
`window.confirm`, `deleted` the answer to the delete request and `listed` the answer to the
request of the `fetchCategories` call that follows a successful delete. -/
def handleMultipleDelete (confirmed : Bool) (deleted : DeleteResponse) (listed : ListResponse)
    (st : State) : Outcome :=
  if JsSet.size st.selectedCategories = 0 then ⟨st, []⟩
  else if !confirmed then ⟨st, []⟩
  else
    match deleted with
    | DeleteResponse.thrown message =>
      ⟨{ st with error := message }, [Request.deleteCategoriesById st.selectedCategories]⟩
    | DeleteResponse.status false =>
      ⟨{ st with error := "Failed to delete categories".toList },
        [Request.deleteCategoriesById st.selectedCategories]⟩
    | DeleteResponse.status true =>
      ⟨fetchCategories listed { st with selectedCategories := [] },
        [Request.deleteCategoriesById st.selectedCategories, Request.allCategories]⟩

/-- The handler `handleDelete`, run to completion, with the same answers as
`handleMultipleDelete`. -/
def handleDelete (categoryId : Id) (confirmed : Bool) (deleted : DeleteResponse)
    (listed : ListResponse) (st : State) : Outcome :=
  if !confirmed then ⟨st, []⟩
  else
    match deleted with
    | DeleteResponse.thrown message =>
      ⟨{ st with error := message }, [Request.deleteCategoryById categoryId]⟩
    | DeleteResponse.status false =>
      ⟨{ st with error := "Failed to delete category".toList },
        [Request.deleteCategoryById categoryId]⟩
    | DeleteResponse.status true =>
      ⟨fetchCategories listed st, [Request.deleteCategoryById categoryId, Request.allCategories]⟩

/-- The handler `sortData`. -/
def sortData (key : SortKey) (st : State) : State :=
  let direction :=
    if st.sortConfig.key = some key ∧ st.sortConfig.direction = Direction.ascending then
      Direction.descending
    else Direction.ascending
  { st with sortConfig := ⟨some key, direction⟩ }

/-! ## Rendered rows and user actions -/

mutual

/-- The rows `renderCategoryRow` renders for a category: its own row, which carries a checkbox
bound to `toggleSelectCategory`, and, when the category is expanded, the rows of its children. -/
def renderCategoryRow (expandedCategories : JsSet) : Category → List Category
  | Category.mk i n d s b cs =>
    Category.mk i n d s b cs ::
      (if JsSet.has expandedCategories i then renderChildren expandedCategories cs else [])

/-- The expression `category.children?.map((child) => renderCategoryRow(child, level + 1))`. -/
def renderChildren (expandedCategories : JsSet) : Option (List Category) → List Category
  | none => []
  | some cs => renderRows expandedCategories cs

/-- The rows rendered for a list of categories. -/
def renderRows (expandedCategories : JsSet) : List Category → List Category
  | [] => []
  | c :: cs => renderCategoryRow expandedCategories c ++ renderRows expandedCategories cs

end

mutual

/-- The category and all its descendants. -/
def Category.nodes : Category → List Category
  | Category.mk i n d s b cs => Category.mk i n d s b cs :: optionNodes cs

/-- The categories of an optional list of children, with their descendants. -/
def optionNodes : Option (List Category) → List Category
  | none => []
  | some cs => listNodes cs

/-- The categories of a list, with their descendants. -/
def listNodes : List Category → List Category
  | [] => []
  | c :: cs => c.nodes ++ listNodes cs

end

/-- The rows of the table in the current render: none while `loading`; `none` when the render
throws. -/
def renderedRows (st : State) : Option (List Category) :=
  match filteredAndSortedCategories st.categories st.searchTerm st.sortConfig with
  | none => none
  | some visible => some (if st.loading then [] else renderRows st.expandedCategories visible)

/-- The test `category.children?.length > 0` that renders the disclosure button of a row. -/
def hasChildren (c : Category) : Bool :=
  match c.children with
  | some (_ :: _) => true
  | _ => false

/-- The actions of the user on the rendered view: the checkbox, the disclosure button and the
delete button of a row, the header checkbox, the search input, a sort header, and the button
"Delete Selected". -/
inductive Action where
  | toggleSelect (categoryId : Id) : Action
  | toggleExpand (categoryId : Id) : Action
  | selectAll (checked : Bool) : Action
  | search (term : Str) : Action
  | sort (key : SortKey) : Action
  | bulkDelete (confirmed : Bool) (deleted : DeleteResponse) (listed : ListResponse) : Action
  | rowDelete (categoryId : Id) (confirmed : Bool) (deleted : DeleteResponse)
      (listed : ListResponse) : Action

/-- The render that follows a new search term or a new collection, and then the search effect:
the effect runs only when the render did not throw. -/
def renderThenEffect (st : State) : Option State :=
  match renderedRows st with
  | none => none
  | some _ => searchEffect st

/-- One action, run to completion with the answers to its requests and the search effect it
triggers; `none` when the control is not rendered in the state or an evaluation throws.  The
checkbox, the disclosure button and the delete button belong to a rendered row, the header
checkbox and the sort headers to the table, the button "Delete Selected" shows for a non-empty
selection, and the search effect runs after the search term or the collection was set. -/
def step (a : Action) (st : State) : Option State :=
  match renderedRows st with
  | none => none
  | some rows =>
    match a with
    | Action.toggleSelect i =>
      if rows.any (fun c => c._id == i) then some (toggleSelectCategory i st) else none
    | Action.toggleExpand i =>
      if rows.any (fun c => c._id == i && hasChildren c) then some (toggleCategory i st)
      else none
    | Action.selectAll checked => if st.loading then none else handleSelectAll checked st
    | Action.search term =>
      if term = st.searchTerm then none else renderThenEffect { st with searchTerm := term }
    | Action.sort key => if st.loading then none else some (sortData key st)
    | Action.bulkDelete confirmed deleted listed =>
      if JsSet.size st.selectedCategories = 0 then none
      else
        match confirmed, deleted, listed with
        | true, DeleteResponse.status true, ListResponse.status true _ =>
          renderThenEffect (handleMultipleDelete confirmed deleted listed st).state
        | _, _, _ => some (handleMultipleDelete confirmed deleted listed st).state
    | Action.rowDelete i confirmed deleted listed =>
      if rows.any (fun c => c._id == i) then
        match confirmed, deleted, listed with
        | true, DeleteResponse.status true, ListResponse.status true _ =>
          renderThenEffect (handleDelete i confirmed deleted listed st).state
        | _, _, _ => some (handleDelete i confirmed deleted listed st).state
      else none

/-- A sequence of actions, each run to completion before the next. -/
def run : List Action → State → Option State
  | [], st => some st
  | a :: as, st =>
    match step a st with
    | none => none
    | some st' => run as st'

/-- The states a sequence of actions passes through, from the first one on, up to the first
action that cannot be taken. -/
def visited : List Action → State → List State
  | [], st => [st]
  | a :: as, st =>
    st ::
      match step a st with
      | none => []
      | some st' => visited as st'

/-- The action is a row delete that was confirmed, succeeded and was followed by a successful
refetch: the one action that sets the collection and keeps the selection. -/
def reloadsUnderSelection (a : Action) : Bool :=
  match a with
  | Action.rowDelete _ true (DeleteResponse.status true) (ListResponse.status true _) => true
  | _ => false

end CategoryList

/-! ## The edit form: `EditCategory.jsx` -/

namespace EditCategory

open CategoryList

/-- The state `formData`: the record fetched for the category, edited through the inputs. -/
structure FormData where
  name : CategoryList.Field Str
  description : CategoryList.Field Str
  parentId : CategoryList.Field Str
  status : CategoryList.Field Str
  stock_availability : CategoryList.Field Bool

/-- The object `payload` that `handleSubmit` sends; `parentId = none` is an object without the
property `parentId`. -/
structure Payload where
  name : CategoryList.Field Str
  description : CategoryList.Field Str
  status : CategoryList.Field Str
  stock_availability : CategoryList.Field Bool
  parentId : Option Str

/-- The white space and line terminator characters that `String.prototype.trim` removes. -/
def isWhiteSpace (c : Char) : Bool :=
  [9, 10, 11, 12, 13, 32, 160, 5760, 8232, 8233, 8239, 8287, 12288, 65279].contains c.toNat ||
    (8192 ≤ c.toNat && c.toNat ≤ 8202)

/-- The method `String.prototype.trim`. -/
def trim (s : Str) : Str :=
  ((s.dropWhile isWhiteSpace).reverse.dropWhile isWhiteSpace).reverse

/-- The object `payload` built in `handleSubmit`: the four copied properties, and `parentId`
when `formData.parentId && formData.parentId.trim() !== ""`. -/
def payload (formData : FormData) : Payload :=
  let payload : Payload :=
    { name := formData.name
      description := formData.description
      status := formData.status
      stock_availability := formData.stock_availability
      parentId := none }
  match formData.parentId with
  | CategoryList.Field.val s =>
    if s ≠ [] ∧ trim s ≠ [] then { payload with parentId := some s } else payload
  | _ => payload

/-- The string consists of white space only. -/
def WhitespaceOnly (s : Str) : Prop := ∀ c ∈ s, isWhiteSpace c = true

/-- The form's `parentId` is set to `s`: a string that is not empty and not white space only. -/
def ParentSet (formData : FormData) (s : Str) : Prop :=
  formData.parentId = CategoryList.Field.val s ∧ s ≠ [] ∧ ¬ WhitespaceOnly s

end EditCategory

namespace CategoryList

/-! ## Lemmas on the built-ins -/

theorem includes_iff (s t : Str) : includes s t = true ↔ t <:+: s := by
  induction s with
  | nil => cases t <;> simp [includes]
  | cons c cs ih =>
    rw [includes, Bool.or_eq_true, ih, List.isPrefixOf_iff_prefix, List.infix_cons_iff]

theorem arraySome_eq_some {α : Type} (p : α → Option Bool) (l : List α) (b : Bool)
    (h : arraySome p l = some b) : b = true ↔ ∃ x ∈ l, p x = some true := by
  induction l with
  | nil => simp [arraySome] at h; simp [← h]
  | cons x xs ih =>
    rw [arraySome] at h
    split at h
    · cases h
    · next hx => cases h; simp [hx]
    · next hx =>
      rw [ih h]
      simp [hx]

theorem arraySome_total {α : Type} (p : α → Option Bool) (l : List α)
    (h : ∀ x ∈ l, p x ≠ none) : ∃ b, arraySome p l = some b := by
  induction l with
  | nil => exact ⟨false, rfl⟩
  | cons x xs ih =>
    rw [arraySome]
    split
    · next hx => exact absurd hx (h x (List.mem_cons_self _ _))
    · exact ⟨true, rfl⟩
    · exact ih (fun y hy => h y (List.mem_cons_of_mem _ hy))

theorem arrayFilter_eq_some {α : Type} (p : α → Option Bool) (l out : List α)
    (h : arrayFilter p l = some out) : out = l.filter (fun x => p x == some true) := by
  induction l generalizing out with
  | nil => simp [arrayFilter] at h; subst h; rfl
  | cons x xs ih =>
    rw [arrayFilter] at h
    split at h
    · cases h
    · next b hx =>
      split at h
      · cases h
      · next ys hys =>
        cases h
        rw [List.filter_cons, ← ih ys hys, hx]
        cases b <;> simp

theorem arrayFilter_total {α : Type} (p : α → Option Bool) (l : List α)
    (h : ∀ x ∈ l, p x ≠ none) : ∃ out, arrayFilter p l = some out := by
  induction l with
  | nil => exact ⟨[], rfl⟩
  | cons x xs ih =>
    obtain ⟨ys, hys⟩ := ih (fun y hy => h y (List.mem_cons_of_mem _ hy))
    rw [arrayFilter]
    split
    · next hx => exact absurd hx (h x (List.mem_cons_self _ _))
    · next b hx => rw [hys]; exact ⟨_, rfl⟩

/-! ### The insertion sort -/

theorem insertSorted_perm {α : Type} (cmp : α → α → Option Int) (x : α) (l out : List α)
    (h : insertSorted cmp x l = some out) : out.Perm (x :: l) := by
  induction l generalizing out with
  | nil => simp [insertSorted] at h; subst h; exact List.Perm.refl _
  | cons y ys ih =>
    rw [insertSorted] at h
    split at h
    · cases h
    · next r hr =>
      split at h
      · cases h; exact List.Perm.refl _
      · split at h
        · cases h
        · next zs hzs =>
          cases h
          exact ((ih zs hzs).cons y).trans (List.Perm.swap x y ys)

theorem sortLoop_perm {α : Type} (cmp : α → α → Option Int) (acc l out : List α)
    (h : sortLoop cmp acc l = some out) : out.Perm (acc ++ l) := by
  induction l generalizing acc out with
  | nil => simp [sortLoop] at h; subst h; simp
  | cons x xs ih =>
    rw [sortLoop] at h
    split at h
    · cases h
    · next acc' hacc =>
      have h1 := ih acc' out h
      have h2 := insertSorted_perm cmp x acc acc' hacc
      refine h1.trans ((h2.append_right xs).trans ?_)
      simp [List.perm_middle.symm]

theorem jsSort_perm {α : Type} (cmp : α → α → Option Int) (l out : List α)
    (h : jsSort cmp l = some out) : out.Perm l := by
  simpa using sortLoop_perm cmp [] l out h

theorem insertSorted_total {α : Type} (cmp : α → α → Option Int) (x : α) (l : List α)
    (h : ∀ y ∈ l, cmp x y ≠ none) : ∃ out, insertSorted cmp x l = some out := by
  induction l with
  | nil => exact ⟨[x], rfl⟩
  | cons y ys ih =>
    obtain ⟨zs, hzs⟩ := ih (fun z hz => h z (List.mem_cons_of_mem _ hz))
    rw [insertSorted]
    split
    · next hx => exact absurd hx (h y (List.mem_cons_self _ _))
    · next r hr =>
      rw [hzs]
      split
      · exact ⟨_, rfl⟩
      · exact ⟨_, rfl⟩

theorem sortLoop_total {α : Type} (cmp : α → α → Option Int) (S : α → Prop)
    (hcmp : ∀ x y, S x → S y → cmp x y ≠ none) (acc l : List α)
    (hS : ∀ a ∈ acc ++ l, S a) : ∃ out, sortLoop cmp acc l = some out := by
  induction l generalizing acc with
  | nil => exact ⟨acc, rfl⟩
  | cons x xs ih =>
    have hx : S x := hS x (by simp)
    obtain ⟨acc', hacc⟩ := insertSorted_total cmp x acc
      (fun y hy => hcmp x y hx (hS y (by simp [hy])))
    rw [sortLoop, hacc]
    refine ih acc' (fun a ha => ?_)
    rcases List.mem_append.mp ha with ha | ha
    · have := (insertSorted_perm cmp x acc acc' hacc).mem_iff.mp ha
      rcases List.mem_cons.mp this with rfl | h'
      · exact hx
      · exact hS a (by simp [h'])
    · exact hS a (by simp [ha])

theorem jsSort_total {α : Type} (cmp : α → α → Option Int) (S : α → Prop)
    (hcmp : ∀ x y, S x → S y → cmp x y ≠ none) (l : List α)
    (hS : ∀ a ∈ l, S a) : ∃ out, jsSort cmp l = some out :=
  sortLoop_total cmp S hcmp [] l (by simpa using hS)

theorem insertSorted_pairwise {α : Type} (P : α → α → Prop) (cmp : α → α → Option Int)
    (x : α) (l out : List α) (hP : l.Pairwise P)
    (hlt : ∀ y ∈ l, ∀ r, cmp x y = some r → r < 0 → P x y ∧ ∀ z, P y z → P x z)
    (hge : ∀ y ∈ l, ∀ r, cmp x y = some r → ¬ r < 0 → P y x)
    (h : insertSorted cmp x l = some out) : out.Pairwise P := by
  induction l generalizing out with
  | nil => simp [insertSorted] at h; subst h; simp
  | cons y ys ih =>
    rw [List.pairwise_cons] at hP
    rw [insertSorted] at h
    split at h
    · cases h
    · next r hr =>
      split at h
      · next hneg =>
        cases h
        obtain ⟨hxy, hxz⟩ := hlt y (List.mem_cons_self _ _) r hr hneg
        refine List.pairwise_cons.mpr ⟨fun z hz => ?_, List.pairwise_cons.mpr hP⟩
        rcases List.mem_cons.mp hz with rfl | hz
        · exact hxy
        · exact hxz z (hP.1 z hz)
      · next hneg =>
        split at h
        · cases h
        · next zs hzs =>
          cases h
          refine List.pairwise_cons.mpr ⟨fun z hz => ?_, ?_⟩
          · have := (insertSorted_perm cmp x ys zs hzs).mem_iff.mp hz
            rcases List.mem_cons.mp this with rfl | hz'
            · exact hge y (List.mem_cons_self _ _) r hr hneg
            · exact hP.1 z hz'
          · exact ih zs hP.2 (fun z hz => hlt z (List.mem_cons_of_mem _ hz))
              (fun z hz => hge z (List.mem_cons_of_mem _ hz)) hzs

theorem sortLoop_pairwise {α : Type} (P : α → α → Prop) (S : α → Prop)
    (cmp : α → α → Option Int)
    (hlt : ∀ x y, S x → S y → ∀ r, cmp x y = some r → r < 0 → P x y ∧ ∀ z, P y z → P x z)
    (hge : ∀ x y, S x → S y → ∀ r, cmp x y = some r → ¬ r < 0 → P y x)
    (acc l out : List α) (hS : ∀ a ∈ acc ++ l, S a) (hP : acc.Pairwise P)
    (h : sortLoop cmp acc l = some out) : out.Pairwise P := by
  induction l generalizing acc with
  | nil => simp [sortLoop] at h; subst h; exact hP
  | cons x xs ih =>
    have hx : S x := hS x (by simp)
    rw [sortLoop] at h
    split at h
    · cases h
    · next acc' hacc =>
      refine ih acc' (fun a ha => ?_) ?_ h
      · rcases List.mem_append.mp ha with ha | ha
        · have := (insertSorted_perm cmp x acc acc' hacc).mem_iff.mp ha
          rcases List.mem_cons.mp this with rfl | h'
          · exact hx
          · exact hS a (by simp [h'])
        · exact hS a (by simp [ha])
      · exact insertSorted_pairwise P cmp x acc acc' hP
          (fun y hy => hlt x y hx (hS y (by simp [hy])))
          (fun y hy => hge x y hx (hS y (by simp [hy]))) hacc

theorem jsSort_pairwise {α : Type} (P : α → α → Prop) (S : α → Prop)
    (cmp : α → α → Option Int)
    (hlt : ∀ x y, S x → S y → ∀ r, cmp x y = some r → r < 0 → P x y ∧ ∀ z, P y z → P x z)
    (hge : ∀ x y, S x → S y → ∀ r, cmp x y = some r → ¬ r < 0 → P y x)
    (l out : List α) (hS : ∀ a ∈ l, S a) (h : jsSort cmp l = some out) : out.Pairwise P :=
  sortLoop_pairwise P S cmp hlt hge [] l out (by simpa using hS) List.Pairwise.nil h

/-! ### The order on strings and booleans -/

theorem strLt_asymm (a b : Str) (h : strLt a b = true) : strLt b a = false := by
  induction a generalizing b with
  | nil => cases b <;> simp [strLt] at h ⊢
  | cons x xs ih =>
    cases b with
    | nil => simp [strLt] at h
    | cons y ys =>
      simp only [strLt] at h ⊢
      split_ifs at h ⊢
      all_goals first | omega | rfl | exact ih ys h

theorem strLt_negtrans (a b c : Str) (h : strLt a c = true) :
    strLt a b = true ∨ strLt b c = true := by
  induction a generalizing b c with
  | nil =>
    cases c with
    | nil => simp [strLt] at h
    | cons z zs => cases b <;> simp [strLt]
  | cons x xs ih =>
    cases c with
    | nil => simp [strLt] at h
    | cons z zs =>
      cases b with
      | nil => simp [strLt]
      | cons y ys =>
        simp only [strLt] at h ⊢
        split_ifs at h ⊢
        all_goals first | omega | simp | exact ih ys zs h

theorem orderValues_neg_iff {α : Type} (lt : α → α → Bool)
    (hasym : ∀ x y, lt x y = true → lt y x = false) (d : Direction) (x y : α) :
    orderValues lt d x y < 0 ↔
      (if d = Direction.ascending then lt x y = true else lt y x = true) := by
  unfold orderValues
  cases d <;> cases hxy : lt x y <;> cases hyx : lt y x <;> simp
  all_goals
    have := hasym x y hxy
    simp [hyx] at this

/-! ### Sets -/

theorem JsSet.mem_add (s : JsSet) (x y : Id) : y ∈ JsSet.add s x ↔ y ∈ s ∨ y = x := by
  unfold JsSet.add JsSet.has
  by_cases h : x ∈ s
  · simp only [h, decide_True, if_true]
    constructor
    · exact Or.inl
    · rintro (h' | rfl)
      · exact h'
      · exact h
  · simp [h]

theorem JsSet.mem_delete (s : JsSet) (x y : Id) :
    y ∈ JsSet.delete s x ↔ y ∈ s ∧ y ≠ x := by
  simp [JsSet.delete]

theorem JsSet.mem_foldl_add (xs : List Id) (acc : JsSet) (y : Id) :
    y ∈ xs.foldl JsSet.add acc ↔ y ∈ acc ∨ y ∈ xs := by
  induction xs generalizing acc with
  | nil => simp
  | cons x xs ih =>
    rw [List.foldl_cons, ih, JsSet.mem_add, List.mem_cons, or_assoc]

theorem JsSet.mem_ofArray (xs : List Id) (y : Id) : y ∈ JsSet.ofArray xs ↔ y ∈ xs := by
  simp [JsSet.ofArray, JsSet.mem_foldl_add]

theorem JsSet.nodup_foldl_add (xs : List Id) (acc : JsSet) (h : acc.Nodup) :
    (xs.foldl JsSet.add acc).Nodup := by
  induction xs generalizing acc with
  | nil => exact h
  | cons x xs ih =>
    rw [List.foldl_cons]
    apply ih
    unfold JsSet.add JsSet.has
    by_cases hx : x ∈ acc
    · simpa [hx] using h
    · simp only [hx, decide_False]
      exact List.Nodup.append h (List.nodup_singleton x) (by simpa using hx)

theorem JsSet.nodup_ofArray (xs : List Id) : (JsSet.ofArray xs).Nodup :=
  JsSet.nodup_foldl_add xs [] List.nodup_nil

/-! ### The search predicate -/

theorem fieldIncludes_eq_some (v : Field Str) (term : Str) (b : Bool)
    (h : fieldIncludes v term = some b) : b = true ↔ ContainsTerm v term := by
  cases v with
  | absent => simp [fieldIncludes] at h
  | null => simp [fieldIncludes] at h
  | val s =>
    simp only [fieldIncludes, Option.some.injEq] at h
    subst h
    rw [includes_iff]
    constructor
    · intro hi; exact ⟨s, rfl, hi⟩
    · rintro ⟨s', hs, hi⟩; cases hs; exact hi

theorem matchesText_eq_some (c : Category) (term : Str) (b : Bool)
    (h : matchesText c term = some b) : b = true ↔ TextMatches c term := by
  unfold matchesText at h
  unfold TextMatches
  split at h
  · cases h
  · next hn =>
    cases h
    simp [(fieldIncludes_eq_some _ _ _ hn).mp rfl]
  · next hn =>
    have h1 := fieldIncludes_eq_some _ _ _ hn
    have h2 := fieldIncludes_eq_some _ _ _ h
    simp only [Bool.false_eq_true, false_iff] at h1
    simp [h1, h2]

theorem arraySome_eq_false {α : Type} (p : α → Option Bool) (l : List α)
    (h : arraySome p l = some false) : ∀ x ∈ l, p x = some false := by
  induction l with
  | nil => simp
  | cons x xs ih =>
    rw [arraySome] at h
    split at h
    · cases h
    · cases h
    · next hx =>
      intro y hy
      rcases List.mem_cons.mp hy with rfl | hy
      · exact hx
      · exact ih h y hy

theorem matchesChildren_eq_some (c : Category) (term : Str) (b : Bool)
    (h : matchesChildren c term = some b) : b = true ↔ ChildMatches c term := by
  unfold matchesChildren at h
  unfold ChildMatches
  split at h
  · next hc => cases h; simp [hc]
  · next cs hc =>
    cases b with
    | true =>
      obtain ⟨x, hx, hpx⟩ := (arraySome_eq_some _ _ _ h).mp rfl
      simp only [true_iff]
      exact ⟨cs, hc, x, hx, (matchesText_eq_some x term true hpx).mp rfl⟩
    | false =>
      have hall := arraySome_eq_false _ _ h
      simp only [Bool.false_eq_true, false_iff]
      rintro ⟨cs', hc', x, hx, hm⟩
      rw [hc] at hc'
      cases hc'
      have := (matchesText_eq_some x term false (hall x hx)).mpr hm
      cases this

theorem matchesCategory_eq_some (c : Category) (term : Str) (b : Bool)
    (h : matchesCategory term c = some b) :
    b = true ↔ TextMatches c term ∨ ChildMatches c term := by
  unfold matchesCategory at h
  split at h
  · cases h
  · next m hm =>
    split at h
    · cases h
    · next k hk =>
      cases h
      rw [Bool.or_eq_true, matchesText_eq_some c term m hm, matchesChildren_eq_some c term k hk]

theorem arrayFilter_defined {α : Type} (p : α → Option Bool) (l out : List α)
    (h : arrayFilter p l = some out) : ∀ x ∈ l, ∃ b, p x = some b := by
  induction l generalizing out with
  | nil => simp
  | cons x xs ih =>
    rw [arrayFilter] at h
    split at h
    · cases h
    · next b hx =>
      split at h
      · cases h
      · next ys hys =>
        intro y hy
        rcases List.mem_cons.mp hy with rfl | hy
        · exact ⟨b, hx⟩
        · exact ih ys hys y hy

theorem matchesText_total (c : Category) (term : Str) (h : hasText c = true) :
    matchesText c term ≠ none := by
  unfold hasText at h
  unfold matchesText fieldIncludes
  split at h
  · next hn hd =>
    rw [hn, hd]
    simp only
    split <;> simp_all
  · cases h

theorem matchesChildren_total (c : Category) (term : Str)
    (h : ∀ cs, c.children = some cs → ∀ child ∈ cs, hasText child = true) :
    matchesChildren c term ≠ none := by
  unfold matchesChildren
  split
  · simp
  · next cs hc =>
    obtain ⟨b, hb⟩ := arraySome_total (fun child => matchesText child term) cs
      (fun x hx => matchesText_total x term (h cs hc x hx))
    simp [hb]

theorem textCollection_iff (categories : List Category) :
    textCollection categories = true ↔
      ∀ c ∈ categories, hasText c = true ∧
        ∀ cs, c.children = some cs → ∀ child ∈ cs, hasText child = true := by
  unfold textCollection
  rw [List.all_eq_true]
  refine forall_congr' fun c => forall_congr' fun _ => ?_
  rw [Bool.and_eq_true]
  refine and_congr Iff.rfl ?_
  cases hc : c.children with
  | none => simp
  | some cs => simp [List.all_eq_true]

theorem matchesCategory_total (categories : List Category) (term : Str)
    (h : textCollection categories = true) :
    ∀ c ∈ categories, matchesCategory term c ≠ none := by
  intro c hc
  obtain ⟨h1, h2⟩ := (textCollection_iff categories).mp h c hc
  unfold matchesCategory
  have a1 := matchesText_total c term h1
  have a2 := matchesChildren_total c term h2
  cases hm : matchesText c term with
  | none => exact absurd hm a1
  | some m =>
    cases hk : matchesChildren c term with
    | none => exact absurd hk a2
    | some k => simp

theorem getMatchingCategories_sublist (categories : List Category) (term : Str)
    (out : List Category) (h : getMatchingCategories categories term = some out) :
    out.Sublist categories := by
  unfold getMatchingCategories at h
  split at h
  · cases h; exact List.Sublist.refl _
  · rw [arrayFilter_eq_some _ _ _ h]; exact List.filter_sublist _

theorem getMatchingCategories_total (categories : List Category) (term : Str)
    (h : textCollection categories = true) :
    ∃ out, getMatchingCategories categories term = some out := by
  unfold getMatchingCategories
  split
  · exact ⟨_, rfl⟩
  · exact arrayFilter_total _ _ (matchesCategory_total categories term h)

/-! ## Filtering: C1 -/

/-- C1. For a non-empty search term `getMatchingCategories` returns for every collection whose
names and descriptions are strings, and whenever it returns, a category is in the result if and
only if it is a top-level category whose own name or description contains the term, letter case
ignored, or one of whose direct children has such a name or description; a category whose only
match is in a grandchild is not in the result. -/
theorem getMatchingCategories_iff (categories : List Category) (searchTerm : Str)
    (hterm : searchTerm ≠ []) :
    (textCollection categories = true →
      ∃ out, getMatchingCategories categories searchTerm = some out) ∧
    (∀ out, getMatchingCategories categories searchTerm = some out →
      ∀ c, c ∈ out ↔
        c ∈ categories ∧ (TextMatches c searchTerm ∨ ChildMatches c searchTerm)) ∧
    (∀ out, getMatchingCategories categories searchTerm = some out →
      ∀ c, GrandchildMatches c searchTerm → ¬ TextMatches c searchTerm →
        ¬ ChildMatches c searchTerm → c ∉ out) := by
  have key : ∀ out, getMatchingCategories categories searchTerm = some out →
      ∀ c, c ∈ out ↔
        c ∈ categories ∧ (TextMatches c searchTerm ∨ ChildMatches c searchTerm) := by
    intro out h c
    unfold getMatchingCategories at h
    rw [if_neg hterm] at h
    have hdef := arrayFilter_defined _ _ _ h
    rw [arrayFilter_eq_some _ _ _ h, List.mem_filter]
    refine and_congr_right fun hc => ?_
    obtain ⟨b, hb⟩ := hdef c hc
    rw [← matchesCategory_eq_some c searchTerm b hb, hb]
    simp
  refine ⟨getMatchingCategories_total categories searchTerm, key, ?_⟩
  intro out h c _ h1 h2 hc
  rcases ((key out h c).mp hc).2 with h' | h'
  · exact h1 h'
  · exact h2 h'

/-- The theorem of C1 at the term "fuji": `orchard`, which matches only in a grandchild, is
dropped, and nothing else of the collection matches. -/
theorem getMatchingCategories_iff_witness :
    "fuji".toList ≠ [] ∧
    GrandchildMatches orchard "fuji".toList ∧
    getMatchingCategories (orchard :: exampleCategories) "fuji".toList = some [] ∧
    ∀ c, c ∈ ([] : List Category) ↔
      c ∈ orchard :: exampleCategories ∧
        (TextMatches c "fuji".toList ∨ ChildMatches c "fuji".toList) :=
  ⟨by decide,
    ⟨_, rfl, _, List.mem_singleton_self _, _, rfl, _, List.mem_singleton_self _,
      Or.inl ⟨_, rfl, (includes_iff _ _).mp rfl⟩⟩,
    rfl,
    (getMatchingCategories_iff (orchard :: exampleCategories) "fuji".toList (by decide)).2.1
      [] rfl⟩

/-! ## The projection: C2 and C7 -/

theorem compareValues_defined {α : Type} (T : ColumnType α) (d : Direction) (a b : Field α)
    (h : b.isAbsent = false) : compareValues T d a b ≠ none := by
  cases a <;> cases b <;> simp [compareValues, Field.isAbsent] at h ⊢
  split <;> simp

theorem comparator_defined (key : SortKey) (d : Direction) (a b : Category)
    (h : absentAt key b = false) : comparator key d a b ≠ none := by
  cases key <;> exact compareValues_defined _ d _ _ h

theorem getSortedData_total (sortConfig : SortConfig) (data : List Category)
    (h : ∀ key, sortConfig.key = some key → ∀ c ∈ data, absentAt key c = false) :
    ∃ out, getSortedData sortConfig data = some out := by
  unfold getSortedData
  split
  · exact ⟨_, rfl⟩
  · next key hk =>
    exact jsSort_total _ (fun c => absentAt key c = false)
      (fun x y _ hy => comparator_defined key _ x y hy) data (h key hk)

theorem getSortedData_perm (sortConfig : SortConfig) (data out : List Category)
    (h : getSortedData sortConfig data = some out) : out.Perm data := by
  unfold getSortedData at h
  split at h
  · cases h; exact List.Perm.refl _
  · exact jsSort_perm _ _ _ h

/-- C2, as the code has it. The projection returns for every collection whose names and
descriptions are strings and that has a value for the sort key in every category; whenever it
returns, the projection is a permutation of the list `getMatchingCategories` returns, which is a
subsequence of the top-level entries (and it is that list itself when there is no sort key): every
projected entry is an entry of the collection and none is invented or duplicated. -/
theorem projection_perm_of_subsequence (categories : List Category) (searchTerm : Str)
    (sortConfig : SortConfig) :
    (textCollection categories = true →
      (∀ key, sortConfig.key = some key → ∀ c ∈ categories, absentAt key c = false) →
      ∃ out, filteredAndSortedCategories categories searchTerm sortConfig = some out) ∧
    (∀ out, filteredAndSortedCategories categories searchTerm sortConfig = some out →
      (∃ matching, getMatchingCategories categories searchTerm = some matching ∧
        matching.Sublist categories ∧ out.Perm matching ∧
        (sortConfig.key = none → out = matching)) ∧
      out.Subperm categories ∧ ∀ c ∈ out, c ∈ categories) := by
  constructor
  · intro htext hkey
    obtain ⟨matching, hm⟩ := getMatchingCategories_total categories searchTerm htext
    have hsub := getMatchingCategories_sublist categories searchTerm matching hm
    obtain ⟨out, ho⟩ := getSortedData_total sortConfig matching
      (fun key hk c hc => hkey key hk c (hsub.subset hc))
    exact ⟨out, by simp [filteredAndSortedCategories, hm, ho]⟩
  · intro out h
    unfold filteredAndSortedCategories at h
    split at h
    · cases h
    · next matching hm =>
      have hsub := getMatchingCategories_sublist categories searchTerm matching hm
      have hperm := getSortedData_perm sortConfig matching out h
      refine ⟨⟨matching, hm, hsub, hperm, ?_⟩, ⟨matching, hperm.symm, hsub⟩, ?_⟩
      · intro hk
        simp only [getSortedData, hk, Option.some.injEq] at h
        exact h.symm
      · intro c hc
        exact hsub.subset (hperm.mem_iff.mp hc)

/-- C2 as stated fails: sorted by name, "apple" comes before "Banana", so the projection of
the collection [Banana, apple] is not a subsequence of it. -/
theorem projection_not_subsequence :
    filteredAndSortedCategories [leaf 1 "Banana", leaf 2 "apple"] []
        ⟨some SortKey.name, Direction.ascending⟩ = some [leaf 2 "apple", leaf 1 "Banana"] ∧
    ¬ List.Sublist [leaf 2 "apple", leaf 1 "Banana"] [leaf 1 "Banana", leaf 2 "apple"] := by
  refine ⟨rfl, fun h => ?_⟩
  have h' := h.map Category._id
  revert h'
  decide

/-- C7. With the empty search term `getMatchingCategories` returns the collection unchanged, and
the projection is `getSortedData` of the whole collection. -/
theorem empty_search_is_identity (categories : List Category) (sortConfig : SortConfig) :
    getMatchingCategories categories [] = some categories ∧
    filteredAndSortedCategories categories [] sortConfig =
      getSortedData sortConfig categories := by
  simp [getMatchingCategories, filteredAndSortedCategories]

/-! ## Sorting: C3 to C6 -/

theorem compareValues_null_left {α : Type} (T : ColumnType α) (d : Direction) (a b : Field α)
    (ha : a.isNull = true) : compareValues T d a b = some 1 := by
  cases a <;> simp [Field.isNull] at ha
  cases b <;> rfl

theorem compareValues_null_right {α : Type} (T : ColumnType α) (d : Direction) (a b : Field α)
    (ha : a.isNull = false) (hb : b.isNull = true) : compareValues T d a b = some (-1) := by
  cases b <;> simp [Field.isNull] at hb
  cases a <;> simp [Field.isNull] at ha <;> rfl

theorem comparator_null_left (key : SortKey) (d : Direction) (a b : Category)
    (ha : nullAt key a = true) : comparator key d a b = some 1 := by
  cases key <;> exact compareValues_null_left _ d _ _ ha

theorem comparator_null_right (key : SortKey) (d : Direction) (a b : Category)
    (ha : nullAt key a = false) (hb : nullAt key b = true) :
    comparator key d a b = some (-1) := by
  cases key <;> exact compareValues_null_right _ d _ _ ha hb

theorem orderValues_descending {α : Type} (lt : α → α → Bool) (x y : α) :
    orderValues lt Direction.descending x y = -orderValues lt Direction.ascending x y := by
  unfold orderValues
  cases lt x y <;> cases lt y x <;> simp

theorem compareValues_descending {α : Type} (T : ColumnType α) (a b : Field α)
    (ha : a.isNull = false) (hb : b.isNull = false) :
    compareValues T Direction.descending a b =
      (compareValues T Direction.ascending a b).map fun r => -r := by
  cases hT : T.isString <;> cases a <;> cases b <;> simp [Field.isNull] at ha hb <;>
    simp [compareValues, hT, orderValues_descending]

theorem comparator_name_of_strings (d : Direction) (a b : Category) (s t : Str)
    (ha : a.name = Field.val s) (hb : b.name = Field.val t) :
    comparator SortKey.name d a b =
      some (orderValues strLt d (lowerName a) (lowerName b)) := by
  simp [comparator, compareValues, ha, hb, textColumn, lowerName]

/-- C4. For every sort key and both directions `getSortedData` returns whenever every category
has a value for the key, and whenever it returns the result is a permutation of the input in
which every category that follows one with a `null` value for the key has a `null` value too:
the categories with `null` come after all the others. -/
theorem getSortedData_nulls_last (data : List Category) (key : SortKey) (d : Direction) :
    ((∀ c ∈ data, absentAt key c = false) →
      ∃ out, getSortedData ⟨some key, d⟩ data = some out) ∧
    (∀ out, getSortedData ⟨some key, d⟩ data = some out →
      out.Perm data ∧ out.Pairwise fun a b => nullAt key a = true → nullAt key b = true) := by
  constructor
  · intro h
    exact getSortedData_total ⟨some key, d⟩ data (fun k hk => by cases hk; exact h)
  · intro out h
    refine ⟨getSortedData_perm _ _ _ h, ?_⟩
    refine jsSort_pairwise (fun a b => nullAt key a = true → nullAt key b = true)
      (fun _ => True) (comparator key d) ?_ ?_ data out (fun _ _ => trivial) h
    · intro x y _ _ r hr hneg
      have hx : nullAt key x = false := by
        cases hn : nullAt key x with
        | false => rfl
        | true =>
          rw [comparator_null_left key d x y hn] at hr
          cases hr
          omega
      exact ⟨fun h' => by simp [hx] at h', fun z _ h' => by simp [hx] at h'⟩
    · intro x y _ _ r hr hneg hy
      cases hn : nullAt key x with
      | true => rfl
      | false =>
        rw [comparator_null_right key d x y hn hy] at hr
        cases hr
        omega

/-- The theorem of C4 at a collection with two `null` descriptions, sorted ascending: the two
categories with a description come first. -/
theorem getSortedData_nulls_last_witness :
    getSortedData ⟨some SortKey.description, Direction.ascending⟩
        [described 1 Field.null, described 2 (Field.val "pears".toList), described 3 Field.null,
          described 4 (Field.val "Apples".toList)] =
      some [described 4 (Field.val "Apples".toList), described 2 (Field.val "pears".toList),
        described 1 Field.null, described 3 Field.null] ∧
    List.Pairwise (fun a b => nullAt SortKey.description a = true →
        nullAt SortKey.description b = true)
      [described 4 (Field.val "Apples".toList), described 2 (Field.val "pears".toList),
        described 1 Field.null, described 3 Field.null] :=
  ⟨rfl, ((getSortedData_nulls_last
    [described 1 Field.null, described 2 (Field.val "pears".toList), described 3 Field.null,
      described 4 (Field.val "Apples".toList)]
    SortKey.description Direction.ascending).2 _ rfl).2⟩

/-- C5, as the code has it. When neither value is `null` the comparator's result under descending
is the negation of its result under ascending (and it throws under one direction exactly when it
throws under the other); when the first value is `null` the result is 1 under both directions,
and when only the second is `null` it is -1 under both. -/
theorem comparator_direction (key : SortKey) (a b : Category) :
    (nullAt key a = false → nullAt key b = false →
      comparator key Direction.descending a b =
        (comparator key Direction.ascending a b).map fun r => -r) ∧
    (nullAt key a = true →
      comparator key Direction.ascending a b = some 1 ∧
      comparator key Direction.descending a b = some 1) ∧
    (nullAt key a = false → nullAt key b = true →
      comparator key Direction.ascending a b = some (-1) ∧
      comparator key Direction.descending a b = some (-1)) := by
  refine ⟨fun ha hb => ?_, fun ha => ⟨comparator_null_left _ _ _ _ ha,
    comparator_null_left _ _ _ _ ha⟩, fun ha hb => ⟨comparator_null_right _ _ _ _ ha hb,
    comparator_null_right _ _ _ _ ha hb⟩⟩
  cases key <;> exact compareValues_descending _ _ _ ha hb

/-- C5 as stated fails: for a category whose `stock_availability` is `null` the comparator
returns 1 under both directions, and 1 is not the negation of 1. -/
theorem comparator_null_ignores_direction :
    comparator SortKey.stock_availability Direction.ascending
      (stocked 1 Field.null) (stocked 2 (Field.val true)) = some 1 ∧
    comparator SortKey.stock_availability Direction.descending
      (stocked 1 Field.null) (stocked 2 (Field.val true)) = some 1 ∧
    comparator SortKey.stock_availability Direction.descending
        (stocked 1 Field.null) (stocked 2 (Field.val true)) ≠
      (comparator SortKey.stock_availability Direction.ascending
        (stocked 1 Field.null) (stocked 2 (Field.val true))).map fun r => -r := by
  decide

/-- C3, as the code has it. For every collection whose `stock_availability` values are `true`,
`false` or `null` (none missing), `getSortedData` under (stock_availability, descending) returns
a permutation of the input in which every category that precedes one with value `true` has
value `true` itself: the categories with `true` come before those with `false` and before those
with `null`. A category without `stock_availability` compares equal, in both orders, to every
category whose value is not `null`. -/
theorem getSortedData_stock_descending (data : List Category)
    (hstock : ∀ c ∈ data, c.stock_availability ≠ Field.absent) :
    (∃ out, getSortedData ⟨some SortKey.stock_availability, Direction.descending⟩ data =
        some out ∧
      out.Perm data ∧
      out.Pairwise fun a b =>
        b.stock_availability = Field.val true → a.stock_availability = Field.val true) ∧
    (∀ a b : Category, a.stock_availability = Field.absent →
      b.stock_availability ≠ Field.null →
      comparator SortKey.stock_availability Direction.descending a b = some 0 ∧
      comparator SortKey.stock_availability Direction.descending b a = some 0) := by
  refine ⟨?_, fun a b ha hb => ?_⟩
  swap
  · rcases hbs : b.stock_availability with _ | _ | v <;>
      simp [comparator, compareValues, boolColumn, ha, hbs] at hb ⊢
  have habs : ∀ c ∈ data, absentAt SortKey.stock_availability c = false := by
    intro c hc
    have := hstock c hc
    unfold absentAt
    cases h : c.stock_availability <;> simp_all [Field.isAbsent]
  obtain ⟨out, hout⟩ := getSortedData_total
    ⟨some SortKey.stock_availability, Direction.descending⟩ data
    (fun k hk => by cases hk; exact habs)
  refine ⟨out, hout, getSortedData_perm _ _ _ hout, ?_⟩
  refine jsSort_pairwise
    (fun a b => b.stock_availability = Field.val true → a.stock_availability = Field.val true)
    (fun c => c.stock_availability ≠ Field.absent)
    (comparator SortKey.stock_availability Direction.descending) ?_ ?_ data out hstock hout
  · intro x y hx hy r hr hneg
    have hy' : y.stock_availability ≠ Field.val true := by
      intro hyt
      rcases hxs : x.stock_availability with _ | _ | (_ | _) <;>
        simp [comparator, compareValues, boolColumn, orderValues, boolLt, hxs, hyt] at hr hx <;>
        omega
    refine ⟨fun h => absurd h hy', fun z hz hzt => absurd (hz hzt) hy'⟩
  · intro x y hx hy r hr hneg hxt
    rcases hys : y.stock_availability with _ | _ | (_ | _) <;>
      simp [comparator, compareValues, boolColumn, orderValues, boolLt, hys, hxt] at hr hy ⊢ <;>
      omega

/-- The theorem of C3 at a collection holding `null`, `false` and `true`, whose sorted order is
`true`, `false`, `null`. -/
theorem getSortedData_stock_descending_witness :
    (∀ c ∈ [stocked 1 Field.null, stocked 2 (Field.val false), stocked 3 (Field.val true)],
      c.stock_availability ≠ Field.absent) ∧
    getSortedData ⟨some SortKey.stock_availability, Direction.descending⟩
        [stocked 1 Field.null, stocked 2 (Field.val false), stocked 3 (Field.val true)] =
      some [stocked 3 (Field.val true), stocked 2 (Field.val false), stocked 1 Field.null] ∧
    ∃ out, getSortedData ⟨some SortKey.stock_availability, Direction.descending⟩
          [stocked 1 Field.null, stocked 2 (Field.val false), stocked 3 (Field.val true)] =
        some out ∧
      out.Perm [stocked 1 Field.null, stocked 2 (Field.val false), stocked 3 (Field.val true)] ∧
      out.Pairwise fun a b =>
        b.stock_availability = Field.val true → a.stock_availability = Field.val true :=
  have h : ∀ c ∈ [stocked 1 Field.null, stocked 2 (Field.val false),
      stocked 3 (Field.val true)], c.stock_availability ≠ Field.absent := by
    intro c hc
    simp only [List.mem_cons, List.mem_singleton, List.not_mem_nil, or_false] at hc
    rcases hc with rfl | rfl | rfl <;> simp [stocked, Category.stock_availability]
  ⟨h, rfl, (getSortedData_stock_descending _ h).1⟩

/-- C3 as stated fails: a category without `stock_availability` compares equal to one with value
`true`, so the collection [missing, true] keeps its order and the category with `true` comes
after the one without a value. -/
theorem stock_absent_before_true :
    getSortedData ⟨some SortKey.stock_availability, Direction.descending⟩
        [stocked 1 Field.absent, stocked 2 (Field.val true)] =
      some [stocked 1 Field.absent, stocked 2 (Field.val true)] ∧
    comparator SortKey.stock_availability Direction.descending
      (stocked 2 (Field.val true)) (stocked 1 Field.absent) = some 0 ∧
    comparator SortKey.stock_availability Direction.descending
      (stocked 1 Field.absent) (stocked 2 (Field.val true)) = some 0 ∧
    ¬ List.Pairwise (fun a b =>
        b.stock_availability = Field.val true → a.stock_availability = Field.val true)
      [stocked 1 Field.absent, stocked 2 (Field.val true)] := by
  refine ⟨rfl, rfl, rfl, ?_⟩
  simp [stocked, Category.stock_availability]

/-- C6. For every collection in which every name is a string, `getSortedData` under
(name, ascending) returns a permutation of the input in which no category precedes one with a
smaller lower-cased name; and for every two categories named "Banana" and "apple", in this
order, the result has "apple" first. -/
theorem getSortedData_name_ascending (data : List Category)
    (hname : ∀ c ∈ data, ∃ s, c.name = Field.val s) :
    (∃ out, getSortedData ⟨some SortKey.name, Direction.ascending⟩ data = some out ∧
      out.Perm data ∧
      out.Pairwise fun a b => strLt (lowerName b) (lowerName a) = false) ∧
    (∀ a b : Category, a.name = Field.val "Banana".toList → b.name = Field.val "apple".toList →
      getSortedData ⟨some SortKey.name, Direction.ascending⟩ [a, b] = some [b, a]) := by
  constructor
  · have habs : ∀ c ∈ data, absentAt SortKey.name c = false := by
      intro c hc
      obtain ⟨s, hs⟩ := hname c hc
      simp [absentAt, hs, Field.isAbsent]
    obtain ⟨out, hout⟩ := getSortedData_total ⟨some SortKey.name, Direction.ascending⟩ data
      (fun k hk => by cases hk; exact habs)
    refine ⟨out, hout, getSortedData_perm _ _ _ hout, ?_⟩
    refine jsSort_pairwise (fun a b => strLt (lowerName b) (lowerName a) = false)
      (fun c => ∃ s, c.name = Field.val s)
      (comparator SortKey.name Direction.ascending) ?_ ?_ data out hname hout
    · intro x y ⟨s, hs⟩ ⟨t, ht⟩ r hr hneg
      rw [comparator_name_of_strings _ x y s t hs ht] at hr
      cases hr
      have hlt := (orderValues_neg_iff strLt strLt_asymm Direction.ascending _ _).mp hneg
      simp only [if_true] at hlt
      refine ⟨strLt_asymm _ _ hlt, fun z hz => ?_⟩
      have hz' : strLt (lowerName z) (lowerName y) = false := hz
      show strLt (lowerName z) (lowerName x) = false
      cases hzx : strLt (lowerName z) (lowerName x) with
      | false => rfl
      | true =>
        rcases strLt_negtrans _ (lowerName y) _ hzx with h1 | h1
        · rw [hz'] at h1; cases h1
        · rw [strLt_asymm _ _ hlt] at h1; cases h1
    · intro x y ⟨s, hs⟩ ⟨t, ht⟩ r hr hneg
      rw [comparator_name_of_strings _ x y s t hs ht] at hr
      cases hr
      have hlt := (orderValues_neg_iff strLt strLt_asymm Direction.ascending _ _).not.mp hneg
      simpa using hlt
  · intro a b ha hb
    have hc : comparator SortKey.name Direction.ascending b a = some (-1) := by
      rw [comparator_name_of_strings _ b a _ _ hb ha]
      simp only [lowerName, ha, hb]
      rfl
    simp [getSortedData, jsSort, sortLoop, insertSorted, hc]

/-- The theorem of C6 at the collection [Banana, apple, cherry]. -/
theorem getSortedData_name_ascending_witness :
    (∀ c ∈ [leaf 1 "Banana", leaf 2 "apple", leaf 3 "cherry"], ∃ s, c.name = Field.val s) ∧
    getSortedData ⟨some SortKey.name, Direction.ascending⟩
        [leaf 1 "Banana", leaf 2 "apple", leaf 3 "cherry"] =
      some [leaf 2 "apple", leaf 1 "Banana", leaf 3 "cherry"] ∧
    getSortedData ⟨some SortKey.name, Direction.ascending⟩ [leaf 1 "Banana", leaf 2 "apple"] =
      some [leaf 2 "apple", leaf 1 "Banana"] :=
  have h : ∀ c ∈ [leaf 1 "Banana", leaf 2 "apple", leaf 3 "cherry"],
      ∃ s, c.name = Field.val s := by
    intro c hc
    simp only [List.mem_cons, List.mem_singleton, List.not_mem_nil, or_false] at hc
    rcases hc with rfl | rfl | rfl <;> exact ⟨_, rfl⟩
  ⟨h, rfl,
    (getSortedData_name_ascending [leaf 1 "Banana", leaf 2 "apple", leaf 3 "cherry"] h).2
      (leaf 1 "Banana") (leaf 2 "apple") rfl rfl⟩

/-! ## Expansion and selection: C8 to C10 -/

theorem collectMatchingParents_eq_some (term : Str) (categories : List Category)
    (acc out : JsSet) (h : collectMatchingParents term acc categories = some out) :
    ∀ i, i ∈ out ↔ i ∈ acc ∨ MatchingParent categories term i := by
  induction categories generalizing acc with
  | nil =>
    simp only [collectMatchingParents, Option.some.injEq] at h
    subst h
    simp [MatchingParent]
  | cons c cs ih =>
    intro i
    rw [collectMatchingParents] at h
    have hcons : MatchingParent (c :: cs) term i ↔
        (c._id = i ∧ ChildMatches c term) ∨ MatchingParent cs term i := by
      simp [MatchingParent]
    split at h
    · cases h
    · next hm =>
      have hc := (matchesChildren_eq_some c term true hm).mp rfl
      rw [ih _ h i, JsSet.mem_add, hcons]
      constructor
      · rintro ((h1 | h1) | h1)
        · exact Or.inl h1
        · exact Or.inr (Or.inl ⟨h1.symm, hc⟩)
        · exact Or.inr (Or.inr h1)
      · rintro (h1 | ⟨h1, _⟩ | h1)
        · exact Or.inl (Or.inl h1)
        · exact Or.inl (Or.inr h1.symm)
        · exact Or.inr h1
    · next hm =>
      have hc : ¬ ChildMatches c term := fun hcm => by
        have := (matchesChildren_eq_some c term false hm).mpr hcm
        cases this
      rw [ih _ h i, hcons]
      constructor
      · rintro (h1 | h1)
        · exact Or.inl h1
        · exact Or.inr (Or.inr h1)
      · rintro (h1 | ⟨_, h1⟩ | h1)
        · exact Or.inl h1
        · exact absurd h1 hc
        · exact Or.inr h1

theorem collectMatchingParents_total (term : Str) (categories : List Category) (acc : JsSet)
    (h : ∀ c ∈ categories, matchesChildren c term ≠ none) :
    ∃ out, collectMatchingParents term acc categories = some out := by
  induction categories generalizing acc with
  | nil => exact ⟨acc, rfl⟩
  | cons c cs ih =>
    rw [collectMatchingParents]
    split
    · next hm => exact absurd hm (h c (List.mem_cons_self _ _))
    · exact ih _ (fun x hx => h x (List.mem_cons_of_mem _ hx))
    · exact ih _ (fun x hx => h x (List.mem_cons_of_mem _ hx))

theorem mem_toggleSet (s : JsSet) (i x : Id) :
    x ∈ toggleSet s i ↔ (x = i ∧ i ∉ s) ∨ (x ≠ i ∧ x ∈ s) := by
  unfold toggleSet
  by_cases hi : i ∈ s
  · have hhas : JsSet.has s i = true := by simp [JsSet.has, hi]
    rw [hhas, if_pos rfl, JsSet.mem_delete]
    simp only [hi, not_true_eq_false, and_false, false_or]
    exact and_comm
  · have hhas : JsSet.has s i = false := by simp [JsSet.has, hi]
    rw [hhas, if_neg (by simp), JsSet.mem_add]
    simp only [hi, not_false_eq_true, and_true]
    constructor
    · rintro (h | rfl)
      · exact Or.inr ⟨fun hx => hi (hx ▸ h), h⟩
      · exact Or.inl rfl
    · rintro (rfl | ⟨_, h⟩)
      · exact Or.inr rfl
      · exact Or.inl h

theorem mem_toggleSet_twice (s : JsSet) (i x : Id) :
    x ∈ toggleSet (toggleSet s i) i ↔ x ∈ s := by
  rw [mem_toggleSet, mem_toggleSet, mem_toggleSet]
  by_cases hx : x = i
  · subst hx
    by_cases hs : x ∈ s <;> simp [hs]
  · simp [hx]

/-- Without a description the filter throws on a category whose name does not contain the term:
`category.description.toLowerCase()` is evaluated on `undefined`. -/
theorem getMatchingCategories_throws_without_description :
    getMatchingCategories
      [Category.mk 1 (Field.val "Fruits".toList) Field.absent Field.absent Field.absent
        (some [leaf 2 "Apples"])] "appl".toList = none :=
  rfl

/-- With a description that contains the term the category "Tools" is kept as well. -/
theorem getMatchingCategories_keeps_matching_description :
    getMatchingCategories
      [fruits, Category.mk 3 (Field.val "Tools".toList) (Field.val "Apple corers".toList)
        (Field.val "active".toList) (Field.val true) none] "appl".toList =
      some [fruits, Category.mk 3 (Field.val "Tools".toList) (Field.val "Apple corers".toList)
        (Field.val "active".toList) (Field.val true) none] :=
  rfl

/-- C8, as the code has it. The search effect returns for every collection whose names and
descriptions are strings. Whenever it returns: for a non-empty term the new ExpansionState holds
exactly the identifiers of the old one and those of `matchingParents(term)`; for the empty term
the state is unchanged; in both cases every identifier of the old ExpansionState is in the new
one. For every collection of a category 1 named "Fruits" with the one child "Apples" and a
category "Tools" without children, and the term "appl": the ExpansionState afterward contains 1
whatever it held before, and the projection is [category 1] under every sort configuration
whenever the descriptions of the two top-level categories are strings that do not contain
"appl". -/
theorem searchEffect_expands_matching_parents (st : State) :
    (textCollection st.categories = true → ∃ st', searchEffect st = some st') ∧
    (∀ st', searchEffect st = some st' →
      (st.searchTerm ≠ [] → ∀ i, i ∈ st'.expandedCategories ↔
        i ∈ st.expandedCategories ∨ MatchingParent st.categories st.searchTerm i) ∧
      (st.searchTerm = [] → st' = st) ∧
      (∀ i ∈ st.expandedCategories, i ∈ st'.expandedCategories)) ∧
    (∀ (c1 c2 c3 : Category) (d1 d3 : Str),
      c1.name = Field.val "Fruits".toList → c1.description = Field.val d1 →
      c1.children = some [c2] → c2.name = Field.val "Apples".toList →
      c3.name = Field.val "Tools".toList → c3.description = Field.val d3 →
      c3.children = none →
      ¬ toLowerCase "appl".toList <:+: toLowerCase d1 →
      ¬ toLowerCase "appl".toList <:+: toLowerCase d3 →
      ∀ sortConfig,
        filteredAndSortedCategories [c1, c3] "appl".toList sortConfig = some [c1]) ∧
    (∀ (c1 c2 c3 : Category) (s : State),
      c1._id = 1 → c1.children = some [c2] → c2.name = Field.val "Apples".toList →
      c3.children = none → s.categories = [c1, c3] → s.searchTerm = "appl".toList →
      ∃ s', searchEffect s = some s' ∧ 1 ∈ s'.expandedCategories) := by
  refine ⟨?_, ?_, ?_, ?_⟩
  · intro htext
    unfold searchEffect
    split
    · exact ⟨_, rfl⟩
    · obtain ⟨m, hm⟩ := collectMatchingParents_total st.searchTerm st.categories []
        (fun c hc => matchesChildren_total c _ ((textCollection_iff _).mp htext c hc).2)
      rw [hm]
      simp only
      split
      · exact ⟨_, rfl⟩
      · exact ⟨_, rfl⟩
  · intro st' h
    unfold searchEffect at h
    split at h
    · next hterm =>
      cases h
      exact ⟨fun hne => absurd hterm hne, fun _ => rfl, fun i hi => hi⟩
    · next hterm =>
      split at h
      · cases h
      · next m hm =>
        have hspec := collectMatchingParents_eq_some _ _ _ _ hm
        split at h
        · cases h
          refine ⟨fun _ i => ?_, fun he => absurd he hterm, fun i hi => ?_⟩
          · simp only [JsSet.mem_ofArray, List.mem_append, hspec, List.not_mem_nil, false_or]
          · simp only [JsSet.mem_ofArray, List.mem_append]
            exact Or.inl hi
        · next hsize =>
          cases h
          have hm0 : m = [] := by
            cases m with
            | nil => rfl
            | cons a as => simp [JsSet.size] at hsize
          refine ⟨fun _ i => ?_, fun he => absurd he hterm, fun i hi => hi⟩
          have := hspec i
          simp only [hm0, List.not_mem_nil, false_or, false_iff] at this
          simp [this]
  · intro c1 c2 c3 d1 d3 hn1 hd1 hch1 hn2 hn3 hd3 hch3 hno1 hno3 sortConfig
    have hi1 : includes (toLowerCase d1) (toLowerCase "appl".toList) = false := by
      cases h : includes (toLowerCase d1) (toLowerCase "appl".toList) with
      | false => rfl
      | true => exact absurd ((includes_iff _ _).mp h) hno1
    have hi3 : includes (toLowerCase d3) (toLowerCase "appl".toList) = false := by
      cases h : includes (toLowerCase d3) (toLowerCase "appl".toList) with
      | false => rfl
      | true => exact absurd ((includes_iff _ _).mp h) hno3
    have hf : includes (toLowerCase "Fruits".toList) (toLowerCase "appl".toList) = false := rfl
    have ht : includes (toLowerCase "Tools".toList) (toLowerCase "appl".toList) = false := rfl
    have ha : includes (toLowerCase "Apples".toList) (toLowerCase "appl".toList) = true := rfl
    have hm2 : matchesText c2 "appl".toList = some true := by
      simp only [matchesText, fieldIncludes, hn2, ha]
    have hk1 : matchesChildren c1 "appl".toList = some true := by
      simp only [matchesChildren, hch1, arraySome, hm2]
    have hm1 : matchesCategory "appl".toList c1 = some true := by
      simp only [matchesCategory, hk1, matchesText, fieldIncludes, hn1, hd1, hf, hi1,
        Bool.false_or]
    have hm3 : matchesCategory "appl".toList c3 = some false := by
      simp only [matchesCategory, matchesText, matchesChildren, fieldIncludes, hn3, hd3, hch3,
        ht, hi3, Bool.false_or]
    have hterm : ¬ "appl".toList = [] := by decide
    have hmatch : getMatchingCategories [c1, c3] "appl".toList = some [c1] := by
      unfold getMatchingCategories
      rw [if_neg hterm]
      simp only [arrayFilter, hm1, hm3]
      rfl
    simp only [filteredAndSortedCategories, hmatch]
    rcases sortConfig with ⟨_ | key, d⟩ <;> rfl
  · intro c1 c2 c3 s hid hch1 hn2 hch3 hcat hterm
    have ha : includes (toLowerCase "Apples".toList) (toLowerCase "appl".toList) = true := rfl
    have hm2 : matchesText c2 "appl".toList = some true := by
      simp only [matchesText, fieldIncludes, hn2, ha]
    have hk1 : matchesChildren c1 "appl".toList = some true := by
      simp only [matchesChildren, hch1, arraySome, hm2]
    have hk3 : matchesChildren c3 "appl".toList = some false := by
      simp only [matchesChildren, hch3]
    have hcoll : collectMatchingParents "appl".toList [] [c1, c3] = some [1] := by
      simp only [collectMatchingParents, hk1, hk3, hid]
      rfl
    have hne : ¬ "appl".toList = [] := by decide
    unfold searchEffect
    rw [hterm, if_neg hne, hcat, hcoll]
    simp only
    rw [if_pos (by decide)]
    exact ⟨_, rfl, by simp [JsSet.mem_ofArray]⟩

/-- The theorem of C8 at the example collection with empty descriptions and at the one in which
"Tools" is described as "Hand tools": the projection for "appl" is category 1 alone, and the
ExpansionState [7] becomes one that contains 1. -/
theorem searchEffect_expands_matching_parents_witness :
    filteredAndSortedCategories exampleCategories "appl".toList
        ⟨some SortKey.stock_availability, Direction.descending⟩ = some [fruits] ∧
    filteredAndSortedCategories [fruits, described 3 (Field.val "Hand tools".toList)]
        "appl".toList ⟨some SortKey.name, Direction.ascending⟩ = some [fruits] ∧
    ∃ s', searchEffect (loaded exampleCategories "appl" [7] []) = some s' ∧
      1 ∈ s'.expandedCategories :=
  ⟨(searchEffect_expands_matching_parents initialState).2.2.1 fruits (leaf 2 "Apples")
      (leaf 3 "Tools") [] [] rfl rfl rfl rfl rfl rfl rfl
      (fun h => Bool.false_ne_true ((includes_iff _ _).mpr h))
      (fun h => Bool.false_ne_true ((includes_iff _ _).mpr h)) _,
    rfl,
    (searchEffect_expands_matching_parents initialState).2.2.2 fruits (leaf 2 "Apples")
      (leaf 3 "Tools") (loaded exampleCategories "appl" [7] []) rfl rfl rfl rfl rfl rfl⟩

/-- C8 as stated fails at the empty term: the empty string is contained in every name, so
category 1 is in `matchingParents("")`, yet the effect leaves the empty ExpansionState empty. -/
theorem searchEffect_empty_term_adds_nothing :
    searchEffect (loaded exampleCategories "" [] []) =
      some (loaded exampleCategories "" [] []) ∧
    MatchingParent (loaded exampleCategories "" [] []).categories
      (loaded exampleCategories "" [] []).searchTerm 1 ∧
    1 ∉ (loaded exampleCategories "" [] []).expandedCategories := by
  refine ⟨rfl, ⟨fruits, List.mem_cons_self _ _, rfl, _, rfl, leaf 2 "Apples",
    List.mem_singleton_self _, Or.inl ⟨_, rfl, (includes_iff _ _).mp rfl⟩⟩, ?_⟩
  simp [loaded]

/-- C9. `toggleCategory` on the ExpansionState and `toggleSelectCategory` on the SelectionState
make the identifier a member if and only if it was not one, leave the membership of every other
identifier as it was, and applied twice give back a set with the members of the original. -/
theorem toggle_flips_membership (categoryId : Id) (st : State) :
    ((categoryId ∈ (toggleCategory categoryId st).expandedCategories ↔
        categoryId ∉ st.expandedCategories) ∧
      (∀ x, x ≠ categoryId →
        (x ∈ (toggleCategory categoryId st).expandedCategories ↔ x ∈ st.expandedCategories)) ∧
      (∀ x, x ∈ (toggleCategory categoryId (toggleCategory categoryId st)).expandedCategories ↔
        x ∈ st.expandedCategories)) ∧
    ((categoryId ∈ (toggleSelectCategory categoryId st).selectedCategories ↔
        categoryId ∉ st.selectedCategories) ∧
      (∀ x, x ≠ categoryId →
        (x ∈ (toggleSelectCategory categoryId st).selectedCategories ↔
          x ∈ st.selectedCategories)) ∧
      (∀ x,
        x ∈ (toggleSelectCategory categoryId
          (toggleSelectCategory categoryId st)).selectedCategories ↔
        x ∈ st.selectedCategories)) := by
  refine ⟨⟨?_, fun x hx => ?_, fun x => ?_⟩, ⟨?_, fun x hx => ?_, fun x => ?_⟩⟩
  · simp [toggleCategory, mem_toggleSet]
  · simp [toggleCategory, mem_toggleSet, hx]
  · exact mem_toggleSet_twice _ _ _
  · simp [toggleSelectCategory, mem_toggleSet]
  · simp [toggleSelectCategory, mem_toggleSet, hx]
  · exact mem_toggleSet_twice _ _ _

/-- C10. With the box checked `handleSelectAll` replaces the SelectionState by the set of the
identifiers of the categories in the filtered and sorted projection, each once, whatever was
selected before; with the box unchecked it sets the SelectionState to the empty set. -/
theorem handleSelectAll_selects_visible (st : State) :
    (∀ visible,
      filteredAndSortedCategories st.categories st.searchTerm st.sortConfig = some visible →
      ∃ st', handleSelectAll true st = some st' ∧
        st'.selectedCategories = JsSet.ofArray (visible.map Category._id) ∧
        (∀ i, i ∈ st'.selectedCategories ↔ ∃ c ∈ visible, c._id = i) ∧
        st'.selectedCategories.Nodup) ∧
    (∃ st', handleSelectAll false st = some st' ∧ st'.selectedCategories = []) := by
  constructor
  · intro visible h
    refine ⟨{ st with selectedCategories := JsSet.ofArray (visible.map Category._id) },
      by simp [handleSelectAll, h], rfl, fun i => ?_, JsSet.nodup_ofArray _⟩
    simp [JsSet.mem_ofArray]
  · exact ⟨_, rfl, rfl⟩

/-- The theorem of C10 at the example collection filtered by "appl", with 3 and 9 selected
before: only category 1 is visible, and the selection afterward is [1], without 3, the
identifier of the filtered-out category. -/
theorem handleSelectAll_selects_visible_witness :
    filteredAndSortedCategories (loaded exampleCategories "appl" [] [3, 9]).categories
        (loaded exampleCategories "appl" [] [3, 9]).searchTerm
        (loaded exampleCategories "appl" [] [3, 9]).sortConfig = some [fruits] ∧
    ∃ st', handleSelectAll true (loaded exampleCategories "appl" [] [3, 9]) = some st' ∧
      st'.selectedCategories = JsSet.ofArray ([fruits].map Category._id) ∧
      (∀ i, i ∈ st'.selectedCategories ↔ ∃ c ∈ [fruits], c._id = i) ∧
      st'.selectedCategories.Nodup :=
  ⟨rfl, (handleSelectAll_selects_visible (loaded exampleCategories "appl" [] [3, 9])).1
    [fruits] rfl⟩

/-! ## The asynchronous handlers and the sort trigger: C12 to C14, C16 -/

/-- C12. A confirmed `handleDelete` that receives a response with `ok` false sets the error
message and changes nothing else: the SelectionState, the ExpansionState and the collection are
those before the call, and the only request sent is the delete request, so no refetch is
issued. -/
theorem handleDelete_failure (categoryId : Id) (listed : ListResponse) (st : State) :
    (handleDelete categoryId true (DeleteResponse.status false) listed st).state =
      { st with error := "Failed to delete category".toList } ∧
    (handleDelete categoryId true (DeleteResponse.status false) listed st).state.error ≠ [] ∧
    (handleDelete categoryId true
      (DeleteResponse.status false) listed st).state.selectedCategories =
        st.selectedCategories ∧
    (handleDelete categoryId true
      (DeleteResponse.status false) listed st).state.expandedCategories =
        st.expandedCategories ∧
    (handleDelete categoryId true (DeleteResponse.status false) listed st).state.categories =
      st.categories ∧
    (handleDelete categoryId true (DeleteResponse.status false) listed st).requests =
      [Request.deleteCategoryById categoryId] ∧
    Request.allCategories ∉
      (handleDelete categoryId true (DeleteResponse.status false) listed st).requests := by
  refine ⟨rfl, ?_, rfl, rfl, rfl, rfl, ?_⟩
  · simp [handleDelete]
  · simp [handleDelete]

/-- C13. With a non-empty SelectionState a confirmed `handleMultipleDelete` sends the delete
request with the selected identifiers as its body. On a response with `ok` true the
SelectionState afterward is empty and the list request follows (the state is that of
`fetchCategories` on the emptied selection); on a response with `ok` false the SelectionState is
unchanged, the error message is set and no list request follows. -/
theorem handleMultipleDelete_spec (listed : ListResponse) (st : State)
    (hsel : st.selectedCategories ≠ []) :
    ((handleMultipleDelete true (DeleteResponse.status true) listed st).requests =
        [Request.deleteCategoriesById st.selectedCategories, Request.allCategories] ∧
      (handleMultipleDelete true (DeleteResponse.status true) listed st).state =
        fetchCategories listed { st with selectedCategories := [] } ∧
      (handleMultipleDelete true
        (DeleteResponse.status true) listed st).state.selectedCategories = []) ∧
    ((handleMultipleDelete true (DeleteResponse.status false) listed st).requests =
        [Request.deleteCategoriesById st.selectedCategories] ∧
      (handleMultipleDelete true (DeleteResponse.status false) listed st).state =
        { st with error := "Failed to delete categories".toList } ∧
      (handleMultipleDelete true
        (DeleteResponse.status false) listed st).state.selectedCategories =
          st.selectedCategories ∧
      (handleMultipleDelete true (DeleteResponse.status false) listed st).state.error ≠ []) := by
  have hsize : ¬ JsSet.size st.selectedCategories = 0 := by
    cases hs : st.selectedCategories with
    | nil => exact absurd hs hsel
    | cons a as => simp [JsSet.size]
  refine ⟨⟨?_, ?_, ?_⟩, ⟨?_, ?_, ?_, ?_⟩⟩
  · simp [handleMultipleDelete, hsize]
  · simp [handleMultipleDelete, hsize]
  · cases listed with
    | thrown message => simp [handleMultipleDelete, hsize, fetchCategories]
    | status ok data => cases ok <;> simp [handleMultipleDelete, hsize, fetchCategories]
  · simp [handleMultipleDelete, hsize]
  · simp [handleMultipleDelete, hsize]
  · simp [handleMultipleDelete, hsize]
  · simp [handleMultipleDelete, hsize]

/-- The theorem of C13 at the example collection with the categories 3 and 1 selected. -/
theorem handleMultipleDelete_spec_witness :
    (loaded exampleCategories "" [] [3, 1]).selectedCategories ≠ [] ∧
    (handleMultipleDelete true (DeleteResponse.status true)
        (ListResponse.status true (some []))
        (loaded exampleCategories "" [] [3, 1])).requests =
      [Request.deleteCategoriesById [3, 1], Request.allCategories] ∧
    (handleMultipleDelete true (DeleteResponse.status true)
        (ListResponse.status true (some []))
        (loaded exampleCategories "" [] [3, 1])).state.selectedCategories = [] :=
  ⟨by decide,
    (handleMultipleDelete_spec (ListResponse.status true (some []))
      (loaded exampleCategories "" [] [3, 1]) (by decide)).1.1,
    (handleMultipleDelete_spec (ListResponse.status true (some []))
      (loaded exampleCategories "" [] [3, 1]) (by decide)).1.2.2⟩

/-- C14. When `fetchCategories` fails, by an exception with a message or by a response with
`ok` false, the resulting state has that single message as error, `loading` false and the
collection held before the call (the empty list from the initial state); when it succeeds the
error is empty, `loading` is false and the collection is the `data` of the response, or the empty
list when `data` is missing. -/
theorem fetchCategories_spec (st : State) :
    (∀ message,
      fetchCategories (ListResponse.thrown message) st =
        { st with error := message, loading := false }) ∧
    (∀ data,
      fetchCategories (ListResponse.status false data) st =
        { st with error := "Failed to fetch categories.".toList, loading := false }) ∧
    (∀ message,
      (fetchCategories (ListResponse.thrown message) initialState).categories = []) ∧
    (∀ data,
      (fetchCategories (ListResponse.status false data) initialState).categories = []) ∧
    (∀ data,
      fetchCategories (ListResponse.status true (some data)) st =
        { st with error := [], loading := false, categories := data }) ∧
    fetchCategories (ListResponse.status true none) st =
      { st with error := [], loading := false, categories := [] } :=
  ⟨fun _ => rfl, fun _ => rfl, fun _ => rfl, fun _ => rfl, fun _ => rfl, rfl⟩

/-- C16. `sortData key` sets the configuration to (key, descending) when the current key is
`key` and the direction is ascending, and to (key, ascending) otherwise. Hence one click on the
stock column from the default configuration yields ascending, a click on a column other than the
current one yields ascending, and further clicks on one column alternate the direction. -/
theorem sortData_spec (key : SortKey) (st : State) :
    (st.sortConfig.key = some key → st.sortConfig.direction = Direction.ascending →
      (sortData key st).sortConfig = ⟨some key, Direction.descending⟩) ∧
    (¬ (st.sortConfig.key = some key ∧ st.sortConfig.direction = Direction.ascending) →
      (sortData key st).sortConfig = ⟨some key, Direction.ascending⟩) ∧
    (sortData SortKey.stock_availability initialState).sortConfig =
      ⟨some SortKey.stock_availability, Direction.ascending⟩ ∧
    (st.sortConfig.key ≠ some key →
      (sortData key st).sortConfig = ⟨some key, Direction.ascending⟩) ∧
    ((sortData key (sortData key st)).sortConfig.key = some key ∧
      (sortData key (sortData key st)).sortConfig.direction ≠
        (sortData key st).sortConfig.direction ∧
      (sortData key (sortData key (sortData key st))).sortConfig =
        (sortData key st).sortConfig) := by
  refine ⟨fun hk hd => ?_, fun h => ?_, rfl, fun hk => ?_, ?_⟩
  · simp [sortData, hk, hd]
  · simp only [sortData, if_neg h]
  · simp [sortData, hk]
  · by_cases h : st.sortConfig.key = some key ∧ st.sortConfig.direction = Direction.ascending
    · simp [sortData, h]
    · simp [sortData, h]

/-! ## The selection under user actions: C11 -/

theorem Category.self_mem_nodes (c : Category) : c ∈ c.nodes := by
  cases c
  simp [Category.nodes]

theorem mem_listNodes (l : List Category) (x : Category) :
    x ∈ listNodes l ↔ ∃ c ∈ l, x ∈ c.nodes := by
  induction l with
  | nil => simp [listNodes]
  | cons c cs ih => simp [listNodes, ih]

mutual

theorem renderCategoryRow_subset (e : JsSet) :
    ∀ c : Category, ∀ x ∈ renderCategoryRow e c, x ∈ c.nodes
  | Category.mk i n d s b cs => by
    intro x hx
    simp only [renderCategoryRow, Category.nodes, List.mem_cons] at hx ⊢
    rcases hx with h | h
    · exact Or.inl h
    · split at h
      · exact Or.inr (renderChildren_subset e cs x h)
      · cases h

theorem renderChildren_subset (e : JsSet) :
    ∀ cs : Option (List Category), ∀ x ∈ renderChildren e cs, x ∈ optionNodes cs
  | none => by simp [renderChildren]
  | some cs => by
    intro x hx
    simp only [renderChildren, optionNodes] at hx ⊢
    exact renderRows_subset e cs x hx

theorem renderRows_subset (e : JsSet) :
    ∀ cs : List Category, ∀ x ∈ renderRows e cs, x ∈ listNodes cs
  | [] => by simp [renderRows]
  | c :: cs => by
    intro x hx
    simp only [renderRows, listNodes, List.mem_append] at hx ⊢
    rcases hx with h | h
    · exact Or.inl (renderCategoryRow_subset e c x h)
    · exact Or.inr (renderRows_subset e cs x h)

end

theorem filteredAndSortedCategories_subset (categories : List Category) (searchTerm : Str)
    (sortConfig : SortConfig) (out : List Category)
    (h : filteredAndSortedCategories categories searchTerm sortConfig = some out) :
    ∀ c ∈ out, c ∈ categories := by
  unfold filteredAndSortedCategories at h
  split at h
  · cases h
  · next matching hm =>
    intro c hc
    exact (getMatchingCategories_sublist _ _ _ hm).subset
      ((getSortedData_perm _ _ _ h).mem_iff.mp hc)

theorem renderedRows_subset (st : State) (rows : List Category)
    (h : renderedRows st = some rows) : ∀ x ∈ rows, x ∈ listNodes st.categories := by
  unfold renderedRows at h
  split at h
  · cases h
  · next visible hv =>
    cases h
    intro x hx
    split at hx
    · cases hx
    · obtain ⟨c, hc, hxc⟩ := (mem_listNodes visible x).mp (renderRows_subset _ visible x hx)
      exact (mem_listNodes _ x).mpr
        ⟨c, filteredAndSortedCategories_subset _ _ _ _ hv c hc, hxc⟩

theorem searchEffect_selection (st st' : State) (h : searchEffect st = some st') :
    st'.selectedCategories = st.selectedCategories ∧ st'.categories = st.categories := by
  unfold searchEffect at h
  split at h
  · cases h; exact ⟨rfl, rfl⟩
  · split at h
    · cases h
    · split at h <;> cases h <;> exact ⟨rfl, rfl⟩

theorem renderThenEffect_selection (st st' : State) (h : renderThenEffect st = some st') :
    st'.selectedCategories = st.selectedCategories ∧ st'.categories = st.categories := by
  unfold renderThenEffect at h
  split at h
  · cases h
  · exact searchEffect_selection st st' h

theorem fetchCategories_selection (r : ListResponse) (st : State) :
    (fetchCategories r st).selectedCategories = st.selectedCategories := by
  cases r with
  | thrown message => rfl
  | status ok data => cases ok <;> rfl

theorem handleDelete_selection (i : Id) (confirmed : Bool) (deleted : DeleteResponse)
    (listed : ListResponse) (st : State) :
    (handleDelete i confirmed deleted listed st).state.selectedCategories =
      st.selectedCategories := by
  cases confirmed with
  | false => rfl
  | true =>
    cases deleted with
    | thrown message => rfl
    | status ok =>
      cases ok with
      | false => rfl
      | true => exact fetchCategories_selection listed st

theorem handleDelete_categories (i : Id) (confirmed : Bool) (deleted : DeleteResponse)
    (listed : ListResponse) (st : State)
    (h : reloadsUnderSelection (Action.rowDelete i confirmed deleted listed) = false) :
    (handleDelete i confirmed deleted listed st).state.categories = st.categories := by
  cases confirmed with
  | false => rfl
  | true =>
    cases deleted with
    | thrown message => rfl
    | status ok =>
      cases ok with
      | false => rfl
      | true =>
        cases listed with
        | thrown message => rfl
        | status ok' data =>
          cases ok' with
          | false => rfl
          | true => simp [reloadsUnderSelection] at h

theorem handleMultipleDelete_selection (confirmed : Bool) (deleted : DeleteResponse)
    (listed : ListResponse) (st : State) :
    ((handleMultipleDelete confirmed deleted listed st).state.selectedCategories =
        st.selectedCategories ∧
      (handleMultipleDelete confirmed deleted listed st).state.categories = st.categories) ∨
    (handleMultipleDelete confirmed deleted listed st).state.selectedCategories = [] := by
  unfold handleMultipleDelete
  split
  · exact Or.inl ⟨rfl, rfl⟩
  · cases confirmed with
    | false => exact Or.inl ⟨rfl, rfl⟩
    | true =>
      cases deleted with
      | thrown message => exact Or.inl ⟨rfl, rfl⟩
      | status ok =>
        cases ok with
        | false => exact Or.inl ⟨rfl, rfl⟩
        | true => exact Or.inr (fetchCategories_selection listed _)

theorem step_selection_from (a : Action) (st st' : State) (h : step a st = some st') :
    ∀ i ∈ st'.selectedCategories,
      i ∈ st.selectedCategories ∨ ∃ c ∈ listNodes st.categories, c._id = i := by
  unfold step at h
  split at h
  · cases h
  · next rows hrows =>
    have hsub := renderedRows_subset st rows hrows
    cases a with
    | toggleSelect j =>
      simp only at h
      split at h
      · next hany =>
        cases h
        intro i hi
        simp only [toggleSelectCategory] at hi
        rcases (mem_toggleSet _ _ _).mp hi with ⟨rfl, _⟩ | ⟨_, hi'⟩
        · obtain ⟨c, hc, hid⟩ := List.any_eq_true.mp hany
          exact Or.inr ⟨c, hsub c hc, by simpa using hid⟩
        · exact Or.inl hi'
      · cases h
    | toggleExpand j =>
      simp only at h
      split at h
      · cases h; exact fun i hi => Or.inl hi
      · cases h
    | selectAll checked =>
      simp only at h
      split at h
      · cases h
      · unfold handleSelectAll at h
        split at h
        · split at h
          · cases h
          · next visible hv =>
            cases h
            intro i hi
            obtain ⟨c, hc, hid⟩ := List.mem_map.mp ((JsSet.mem_ofArray _ _).mp hi)
            exact Or.inr ⟨c, (mem_listNodes _ c).mpr
              ⟨c, filteredAndSortedCategories_subset _ _ _ _ hv c hc, c.self_mem_nodes⟩, hid⟩
        · cases h
          intro i hi
          cases hi
    | search term =>
      simp only at h
      split at h
      · cases h
      · obtain ⟨h1, _⟩ := renderThenEffect_selection _ _ h
        rw [h1]
        exact fun i hi => Or.inl hi
    | sort key =>
      simp only at h
      split at h
      · cases h
      · cases h; exact fun i hi => Or.inl hi
    | bulkDelete confirmed deleted listed =>
      simp only at h
      split at h
      · cases h
      · have hsel := handleMultipleDelete_selection confirmed deleted listed st
        have hst' : st'.selectedCategories =
            (handleMultipleDelete confirmed deleted listed st).state.selectedCategories := by
          split at h
          · exact (renderThenEffect_selection _ _ h).1
          · cases h; rfl
        intro i hi
        rw [hst'] at hi
        rcases hsel with ⟨h1, _⟩ | h1
        · rw [h1] at hi; exact Or.inl hi
        · rw [h1] at hi; cases hi
    | rowDelete j confirmed deleted listed =>
      simp only at h
      split at h
      · have hst' : st'.selectedCategories =
            (handleDelete j confirmed deleted listed st).state.selectedCategories := by
          split at h
          · exact (renderThenEffect_selection _ _ h).1
          · cases h; rfl
        intro i hi
        rw [hst', handleDelete_selection] at hi
        exact Or.inl hi
      · cases h

theorem step_collection (a : Action) (st st' : State) (h : step a st = some st')
    (ha : reloadsUnderSelection a = false) :
    st'.categories = st.categories ∨ st'.selectedCategories = [] := by
  unfold step at h
  split at h
  · cases h
  · cases a with
    | toggleSelect j =>
      simp only at h
      split at h
      · cases h; exact Or.inl rfl
      · cases h
    | toggleExpand j =>
      simp only at h
      split at h
      · cases h; exact Or.inl rfl
      · cases h
    | selectAll checked =>
      simp only at h
      split at h
      · cases h
      · unfold handleSelectAll at h
        split at h
        · split at h
          · cases h
          · cases h; exact Or.inl rfl
        · cases h; exact Or.inl rfl
    | search term =>
      simp only at h
      split at h
      · cases h
      · exact Or.inl (renderThenEffect_selection _ _ h).2
    | sort key =>
      simp only at h
      split at h
      · cases h
      · cases h; exact Or.inl rfl
    | bulkDelete confirmed deleted listed =>
      simp only at h
      split at h
      · cases h
      · have hsel := handleMultipleDelete_selection confirmed deleted listed st
        have hst' : st'.selectedCategories =
              (handleMultipleDelete confirmed deleted listed st).state.selectedCategories ∧
            st'.categories =
              (handleMultipleDelete confirmed deleted listed st).state.categories := by
          split at h
          · exact renderThenEffect_selection _ _ h
          · cases h; exact ⟨rfl, rfl⟩
        rcases hsel with ⟨_, h2⟩ | h1
        · exact Or.inl (hst'.2.trans h2)
        · exact Or.inr (hst'.1.trans h1)
    | rowDelete j confirmed deleted listed =>
      simp only at h
      split at h
      · have hst' : st'.categories =
            (handleDelete j confirmed deleted listed st).state.categories := by
          split at h
          · exact (renderThenEffect_selection _ _ h).2
          · cases h; rfl
        exact Or.inl (hst'.trans (handleDelete_categories j confirmed deleted listed st ha))
      · cases h

theorem run_selection_known (K : Id → Prop) (actions : List Action) (s st : State)
    (hsel : ∀ i ∈ s.selectedCategories, K i)
    (hvis : ∀ s' ∈ visited actions s, ∀ c ∈ listNodes s'.categories, K c._id)
    (hrun : run actions s = some st) : ∀ i ∈ st.selectedCategories, K i := by
  induction actions generalizing s with
  | nil =>
    simp only [run, Option.some.injEq] at hrun
    subst hrun
    exact hsel
  | cons a as ih =>
    rw [run] at hrun
    split at hrun
    · cases hrun
    · next s1 hstep =>
      have hv : visited (a :: as) s = s :: visited as s1 := by
        simp [visited, hstep]
      rw [hv] at hvis
      refine ih s1 (fun i hi => ?_) (fun s' hs' => hvis s' (List.mem_cons_of_mem _ hs')) hrun
      rcases step_selection_from a s s1 hstep i hi with h1 | ⟨c, hc, hid⟩
      · exact hsel i h1
      · exact hid ▸ hvis s (List.mem_cons_self _ _) c hc

theorem run_selection_current (actions : List Action) (s st : State)
    (hsel : ∀ i ∈ s.selectedCategories, ∃ c ∈ listNodes s.categories, c._id = i)
    (hact : ∀ a ∈ actions, reloadsUnderSelection a = false)
    (hrun : run actions s = some st) :
    ∀ i ∈ st.selectedCategories, ∃ c ∈ listNodes st.categories, c._id = i := by
  induction actions generalizing s with
  | nil =>
    simp only [run, Option.some.injEq] at hrun
    subst hrun
    exact hsel
  | cons a as ih =>
    rw [run] at hrun
    split at hrun
    · cases hrun
    · next s1 hstep =>
      refine ih s1 (fun i hi => ?_) (fun b hb => hact b (List.mem_cons_of_mem _ hb)) hrun
      rcases step_collection a s s1 hstep (hact a (List.mem_cons_self _ _)) with hc | he
      · rw [hc]
        rcases step_selection_from a s s1 hstep i hi with h1 | h1
        · exact hsel i h1
        · exact h1
      · rw [he] at hi
        cases hi

/-- C11, as the code has it. Starting from an empty selection, after every sequence of user
actions (the checkbox, the disclosure button or the delete button of a rendered row, select-all,
deselect-all, a new search term, a sort click, bulk delete), each run to completion, every
identifier in the SelectionState is the identifier of a category, top-level or nested at any
depth, of the collection held in one of the states the run passed through; and when no row
delete of the run succeeded and refetched the collection, it is the identifier of a category of
the current collection. -/
theorem selection_within_loaded (st0 : State) (actions : List Action) (st : State)
    (hinit : st0.selectedCategories = []) (hrun : run actions st0 = some st) :
    (∀ i ∈ st.selectedCategories,
      ∃ s ∈ visited actions st0, ∃ c ∈ listNodes s.categories, c._id = i) ∧
    ((∀ a ∈ actions, reloadsUnderSelection a = false) →
      ∀ i ∈ st.selectedCategories, ∃ c ∈ listNodes st.categories, c._id = i) := by
  constructor
  · exact run_selection_known
      (fun i => ∃ s ∈ visited actions st0, ∃ c ∈ listNodes s.categories, c._id = i)
      actions st0 st (by rw [hinit]; intro i hi; cases hi)
      (fun s hs c hc => ⟨s, hs, c, hc, rfl⟩) hrun
  · intro hact
    exact run_selection_current actions st0 st (by rw [hinit]; intro i hi; cases hi) hact hrun

/-- The theorem of C11 at the run that selects all rows of the example collection and then
deletes the row of category 3, the refetch returning the collection without it: the selection
[1, 3] lies within the collection the run started from. -/
theorem selection_within_loaded_witness :
    (loaded exampleCategories "" [] []).selectedCategories = [] ∧
    run [Action.selectAll true,
        Action.rowDelete 3 true (DeleteResponse.status true)
          (ListResponse.status true (some [fruits]))]
        (loaded exampleCategories "" [] []) =
      some (loaded [fruits] "" [] [1, 3]) ∧
    ∀ i ∈ (loaded [fruits] "" [] [1, 3]).selectedCategories,
      ∃ s ∈ visited [Action.selectAll true,
          Action.rowDelete 3 true (DeleteResponse.status true)
            (ListResponse.status true (some [fruits]))]
          (loaded exampleCategories "" [] []),
        ∃ c ∈ listNodes s.categories, c._id = i :=
  ⟨rfl, rfl,
    (selection_within_loaded (loaded exampleCategories "" [] [])
      [Action.selectAll true,
        Action.rowDelete 3 true (DeleteResponse.status true)
          (ListResponse.status true (some [fruits]))]
      (loaded [fruits] "" [] [1, 3]) rfl rfl).1⟩

/-- C11 as stated fails. Searching "appl" expands category 1 and renders the row of its child 2,
whose checkbox selects 2, not a top-level row; after select-all, searching "appl" filters
category 3 out and leaves it selected (in both states the only visible top-level row is
category 1); and after select-all, deleting the row of category 3 leaves 3 selected although
the refetched collection no longer holds it. -/
theorem selection_leaves_visible_rows :
    (run [Action.search "appl".toList, Action.toggleSelect 2]
        (loaded exampleCategories "" [] []) =
      some (loaded exampleCategories "appl" [1] [2]) ∧
    filteredAndSortedCategories (loaded exampleCategories "appl" [1] [2]).categories
        (loaded exampleCategories "appl" [1] [2]).searchTerm
        (loaded exampleCategories "appl" [1] [2]).sortConfig = some [fruits] ∧
    2 ∈ (loaded exampleCategories "appl" [1] [2]).selectedCategories ∧
    ¬ ∃ c ∈ [fruits], c._id = 2) ∧
    (run [Action.selectAll true, Action.search "appl".toList]
        (loaded exampleCategories "" [] []) =
      some (loaded exampleCategories "appl" [1] [1, 3]) ∧
    filteredAndSortedCategories (loaded exampleCategories "appl" [1] [1, 3]).categories
        (loaded exampleCategories "appl" [1] [1, 3]).searchTerm
        (loaded exampleCategories "appl" [1] [1, 3]).sortConfig = some [fruits] ∧
    3 ∈ (loaded exampleCategories "appl" [1] [1, 3]).selectedCategories ∧
    ¬ ∃ c ∈ [fruits], c._id = 3) ∧
    (run [Action.selectAll true,
        Action.rowDelete 3 true (DeleteResponse.status true)
          (ListResponse.status true (some [fruits]))]
        (loaded exampleCategories "" [] []) =
      some (loaded [fruits] "" [] [1, 3]) ∧
    filteredAndSortedCategories (loaded [fruits] "" [] [1, 3]).categories
        (loaded [fruits] "" [] [1, 3]).searchTerm
        (loaded [fruits] "" [] [1, 3]).sortConfig = some [fruits] ∧
    3 ∈ (loaded [fruits] "" [] [1, 3]).selectedCategories ∧
    ¬ ∃ c ∈ listNodes (loaded [fruits] "" [] [1, 3]).categories, c._id = 3) := by
  refine ⟨⟨rfl, rfl, by decide, ?_⟩, ⟨rfl, rfl, by decide, ?_⟩, ⟨rfl, rfl, by decide, ?_⟩⟩
  · simp [fruits, Category._id]
  · simp [fruits, Category._id]
  · simp [loaded, fruits, leaf, listNodes, Category.nodes, optionNodes, Category._id]

end CategoryList

/-! ## The update payload: C15 -/

namespace EditCategory

open CategoryList

theorem dropWhile_all_of_all (p : Char → Bool) (s : Str)
    (h : ∀ c ∈ s.dropWhile p, p c = true) : ∀ c ∈ s, p c = true := by
  induction s with
  | nil => simp
  | cons a t ih =>
    cases hp : p a with
    | true =>
      rw [List.dropWhile_cons_of_pos hp] at h
      intro c hc
      rcases List.mem_cons.mp hc with rfl | hc
      · exact hp
      · exact ih h c hc
    | false =>
      rw [List.dropWhile_cons_of_neg (by simp [hp])] at h
      have := h a (List.mem_cons_self _ _)
      rw [hp] at this
      cases this

theorem trim_eq_nil_iff (s : Str) : trim s = [] ↔ WhitespaceOnly s := by
  unfold trim WhitespaceOnly
  rw [List.reverse_eq_nil_iff, List.dropWhile_eq_nil_iff]
  constructor
  · intro h
    exact dropWhile_all_of_all isWhiteSpace s (fun c hc => h c (List.mem_reverse.mpr hc))
  · intro h c hc
    exact h c ((List.dropWhile_sublist isWhiteSpace).subset (List.mem_reverse.mp hc))

/-- C15. The payload built by `handleSubmit` holds the form's name, description, status and
stock_availability, and it has a `parentId`, equal to the form's, if and only if the form's
`parentId` is a string that is not empty and not white space only; when the form's `parentId`
is missing, `null`, empty or white space only the payload has no `parentId`. -/
theorem payload_spec (formData : FormData) :
    (payload formData).name = formData.name ∧
    (payload formData).description = formData.description ∧
    (payload formData).status = formData.status ∧
    (payload formData).stock_availability = formData.stock_availability ∧
    (∀ s, (payload formData).parentId = some s ↔ ParentSet formData s) ∧
    ((payload formData).parentId = none ↔ ¬ ∃ s, ParentSet formData s) := by
  have hfields : (payload formData).name = formData.name ∧
      (payload formData).description = formData.description ∧
      (payload formData).status = formData.status ∧
      (payload formData).stock_availability = formData.stock_availability := by
    unfold payload
    cases formData.parentId with
    | absent => exact ⟨rfl, rfl, rfl, rfl⟩
    | null => exact ⟨rfl, rfl, rfl, rfl⟩
    | val s => simp only; split <;> exact ⟨rfl, rfl, rfl, rfl⟩
  have hparent : ∀ s, (payload formData).parentId = some s ↔ ParentSet formData s := by
    intro s
    unfold payload ParentSet
    cases hp : formData.parentId with
    | absent => simp
    | null => simp
    | val t =>
      simp only [CategoryList.Field.val.injEq]
      by_cases hset : t ≠ [] ∧ trim t ≠ []
      · rw [if_pos hset]
        simp only [Option.some.injEq]
        constructor
        · rintro rfl
          exact ⟨rfl, hset.1, fun hw => hset.2 ((trim_eq_nil_iff t).mpr hw)⟩
        · rintro ⟨h, _, _⟩
          exact h
      · rw [if_neg hset]
        constructor
        · intro h
          cases h
        · rintro ⟨rfl, h1, h2⟩
          exact absurd ⟨h1, fun ht => h2 ((trim_eq_nil_iff t).mp ht)⟩ hset
  refine ⟨hfields.1, hfields.2.1, hfields.2.2.1, hfields.2.2.2, hparent, ?_⟩
  constructor
  · rintro hnone ⟨s, hs⟩
    rw [(hparent s).mpr hs] at hnone
    cases hnone
  · intro h
    cases hp : (payload formData).parentId with
    | none => rfl
    | some s => exact absurd ⟨s, (hparent s).mp hp⟩ h

/-- The theorem of C15 at two forms: a `parentId` of a blank and a tab gives a payload without
`parentId`, the `parentId` "c42" is copied. -/
theorem payload_spec_witness :
    (payload ⟨CategoryList.Field.val "Tea".toList, CategoryList.Field.val [],
      CategoryList.Field.val " \t".toList, CategoryList.Field.val "active".toList,
      CategoryList.Field.val true⟩).parentId = none ∧
    (payload ⟨CategoryList.Field.val "Tea".toList, CategoryList.Field.val [],
      CategoryList.Field.val "c42".toList, CategoryList.Field.val "active".toList,
      CategoryList.Field.val true⟩).parentId = some "c42".toList ∧
    ParentSet ⟨CategoryList.Field.val "Tea".toList, CategoryList.Field.val [],
      CategoryList.Field.val "c42".toList, CategoryList.Field.val "active".toList,
      CategoryList.Field.val true⟩ "c42".toList :=
  ⟨rfl, rfl,
    ((payload_spec ⟨CategoryList.Field.val "Tea".toList, CategoryList.Field.val [],
      CategoryList.Field.val "c42".toList, CategoryList.Field.val "active".toList,
      CategoryList.Field.val true⟩).2.2.2.2.1 "c42".toList).mp rfl⟩

end EditCategory
